import Mathlib

/-!
# teasolver: key recovery for a TEA-variant half-round

A shallow embedding of `tea_data.{h,cpp}`, `bitmap.{h,cpp}` and `main.cpp`.

* `uint32_t` values are natural numbers; every operation that can leave the
  32-bit range is reduced modulo `2^32` explicitly (`add32`, `sub32`, `shl32`,
  `not32`).
* `input_data` (a `std::vector<half_round>`) is a list; an
  `input_data::iterator` is an index into that list.  Member functions that
  mutate an observation return the new observation.
* Undefined behaviour (dereferencing an iterator that was never stored,
  `inputs[0]` on an empty vector) is the value `none`.
-/

namespace teasolver

/-! ## 32-bit unsigned arithmetic -/

/-- Unsigned 32-bit addition. -/
def add32 (x y : Nat) : Nat := (x + y) % 2 ^ 32

/-- Unsigned 32-bit subtraction. -/
def sub32 (x y : Nat) : Nat := (x + (2 ^ 32 - y % 2 ^ 32)) % 2 ^ 32

/-- Unsigned 32-bit left shift. -/
def shl32 (x n : Nat) : Nat := (x <<< n) % 2 ^ 32

/-- Unsigned 32-bit complement. -/
def not32 (x : Nat) : Nat := 2 ^ 32 - 1 - x % 2 ^ 32

/-! ## tea_data.h / tea_data.cpp -/

/-- The `half_round` struct: one traced half-round equation. -/
structure half_round where
  a : Nat
  b : Nat
  sum : Nat
  b_prime : Nat
  diff_term : Nat
  diff_term_set : Bool
  deriving DecidableEq, Repr, Inhabited

/-- The vector type `input_data`. -/
abbrev input_data := List half_round

/-- The constructor `half_round(a, b, sum, b_prime)`. -/
def half_round.new (a b sum b_prime : Nat) : half_round :=
  { a := a, b := b, sum := sum, b_prime := b_prime, diff_term := 0, diff_term_set := false }

/-- The method `half_round::calc_diff_term`. -/
def half_round.calc_diff_term (h : half_round) : half_round :=
  if !h.diff_term_set then
    { h with
      diff_term := sub32 (sub32 (sub32 h.b h.b_prime) (shl32 h.a 4)) ((h.a >>> 5) ^^^ h.sum)
      diff_term_set := true }
  else h

/-- The method `half_round::key3_from_key2`: the returned value and the
observation after the call. -/
def half_round.key3_from_key2 (h : half_round) (key2 : Nat) : Nat × half_round :=
  let h1 := h.calc_diff_term
  (sub32 h1.diff_term (key2 ^^^ h1.a), h1)

/-- The method `half_round::verify_keys`. -/
def half_round.verify_keys (h : half_round) (key2 key3 : Nat) : Bool :=
  let trial_b_prime :=
    sub32 h.b (add32 (add32 (add32 (shl32 h.a 4) (key2 ^^^ h.a)) ((h.a >>> 5) ^^^ h.sum)) key3)
  if trial_b_prime = h.b_prime then true else false

/-! ## bitmap.h / bitmap.cpp -/

/-- The struct `bit_info`: two iterators into the input vector, `none` while
nothing has been stored. -/
structure bit_info where
  one : Option Nat
  zero : Option Nat
  deriving DecidableEq, Repr, Inhabited

/-- The class `bitmap`. `input_iters` has 31 entries, for bits 0..30. -/
structure bitmap where
  input_iters : List bit_info
  ones_mask : Nat
  zeros_mask : Nat
  deriving DecidableEq, Repr

/-- The method `bitmap::solvable_bits`. -/
def bitmap.solvable_bits (m : bitmap) : Nat := m.ones_mask &&& m.zeros_mask

/-- The member `bitmap::operator[]`. -/
def bitmap.at (m : bitmap) (i : Nat) : bit_info := m.input_iters.getD i default

/-- Calls `it->calc_diff_term()` on the element an iterator points to. -/
def calc_at (inp : input_data) (it : Nat) : input_data :=
  inp.modify half_round.calc_diff_term it

/-- State of the constructor while it scans one observation: the input vector,
the bitmap, and the local `a`, shifted right once per bit. -/
structure scan_state where
  inp : input_data
  map : bitmap
  a : Nat
  deriving DecidableEq, Repr

/-- Body of the inner loop `for (bit = 0; bit < 31; bit++)` of the constructor. -/
def bitmap.scan_bit (it : Nat) (s : scan_state) (bit : Nat) : scan_state :=
  let s1 : scan_state :=
    if s.a &&& 1 ≠ 0 then
      if ¬ ((s.map.ones_mask >>> bit) &&& 1 ≠ 0) then
        { s with
          map :=
            { s.map with
              input_iters :=
                s.map.input_iters.modify (fun e => { e with one := some it }) bit
              ones_mask := s.map.ones_mask ||| shl32 1 bit }
          inp := calc_at s.inp it }
      else s
    else
      if ¬ ((s.map.zeros_mask >>> bit) &&& 1 ≠ 0) then
        { s with
          map :=
            { s.map with
              input_iters :=
                s.map.input_iters.modify (fun e => { e with zero := some it }) bit
              zeros_mask := s.map.zeros_mask ||| shl32 1 bit }
          inp := calc_at s.inp it }
      else s
  { s1 with a := s1.a >>> 1 }

/-- One pass of the outer loop body before the `break` test: the inner loop
over the 31 bit positions for the observation at `it`. -/
def bitmap.scan_entry (inp : input_data) (m : bitmap) (it : Nat) : input_data × bitmap :=
  let s0 : scan_state := { inp := inp, map := m, a := (inp.getD it default).a }
  let s := (List.range 31).foldl (bitmap.scan_bit it) s0
  (s.inp, s.map)

/-- The outer loop `for (it = in.begin(); it != in.end(); it++)` with its
early `break`, from position `it` with `n` positions remaining. -/
def bitmap.scan_from : Nat → Nat → input_data → bitmap → input_data × bitmap
  | 0, _, inp, m => (inp, m)
  | n + 1, it, inp, m =>
    let r := bitmap.scan_entry inp m it
    if r.2.ones_mask &&& r.2.zeros_mask = 0x7fffffff then r
    else bitmap.scan_from n (it + 1) r.1 r.2

/-- The bitmap at the start of the constructor: `ones_mask = zeros_mask = 0` and
no iterator stored. -/
def bitmap.empty : bitmap :=
  { input_iters := List.replicate 31 { one := none, zero := none }
    ones_mask := 0
    zeros_mask := 0 }

/-- The constructor `bitmap::bitmap(input_data& in)`: the input vector after the
call and the bitmap built. -/
def bitmap.build (inp : input_data) : input_data × bitmap :=
  bitmap.scan_from inp.length 0 inp bitmap.empty

/-! ## main.cpp -/

/-- Outcome of the run: the key pair printed after `found!`, or
`Valid key not found!`. -/
inductive search_result where
  | Found (key2 key3 : Nat)
  | NotFound
  deriving DecidableEq, Repr

/-- The table `raw_inputs`. -/
def raw_inputs : List (Nat × Nat × Nat × Nat) :=
  [ (0xea7895f7, 0x98e346f7, 0x28b7bd67, 0xa0b58ff4),
    (0x715e30c9, 0xa0b58ff4, 0x8a8043ae, 0x4a25987b),
    (0x191f3d4f, 0x4a25987b, 0xec48c9f5, 0x7c505d29),
    (0x4c8c5408, 0x7c505d29, 0x4e11503c, 0xe5414c8b),
    (0x2cdb7aed, 0xe5414c8b, 0xafd9d683, 0x6ad2182),
    (0x2c2e1c7c, 0x6ad2182, 0x11a25cca, 0xd095d843),
    (0x5e8683ad, 0xd095d843, 0x736ae311, 0xe2c4fe42) ]

/-- The loop of `main` that fills `inputs` from the raw table. -/
def load_inputs (raw : List (Nat × Nat × Nat × Nat)) : input_data :=
  raw.map fun r => half_round.new r.1 r.2.1 r.2.2.1 r.2.2.2

/-- Body of the fast-solver loop of `main` for one bit position; `none` when an
iterator that was never stored is dereferenced. -/
def solve_bit (inp : input_data) (m : bitmap) (solvable_bits : Nat)
    (key2 : Nat) (bit : Nat) : Option Nat :=
  if (solvable_bits >>> bit) &&& 1 ≠ 0 then
    match (m.at bit).zero, (m.at bit).one with
    | some zero_it, some one_it =>
      match inp[zero_it]?, inp[one_it]? with
      | some z, some o =>
        let c := sub32 z.diff_term o.diff_term
        let a0_np1 := (z.a >>> (bit + 1)) &&& 1
        let a1_np1 := (o.a >>> (bit + 1)) &&& 1
        let c_np1 := (c >>> (bit + 1)) &&& 1
        let k2_n := not32 (a0_np1 ^^^ a1_np1 ^^^ c_np1) &&& 1
        some (key2 ||| shl32 k2_n bit)
      | _, _ => none
    | _, _ => none
  else some key2

/-- The key2 fast solver of `main`: the loop over bits 0..30 starting from
`key2 = 0`. -/
def fast_solver (inp : input_data) (m : bitmap) (solvable_bits : Nat) : Option Nat :=
  (List.range 31).foldlM (solve_bit inp m solvable_bits) 0

/-- The inner verification loop of `main` over the observations after the first:
whether all of them gave `key3`, and the observations after the calls. -/
def check_rest (key2 key3 : Nat) : input_data → Bool × input_data
  | [] => (true, [])
  | h :: t =>
    let r := h.key3_from_key2 key2
    if r.1 ≠ key3 then (false, r.2 :: t)
    else
      let rt := check_rest key2 key3 t
      (rt.1, r.2 :: rt.2)

/-- One trial of a candidate `key2`: `key3` from `inputs[0]`, then the check of
the remaining observations. Returns `verified`, `key3` and the input vector after
the calls; `none` when `inputs` is empty. -/
def try_key2 (inp : input_data) (key2 : Nat) : Option (Bool × Nat × input_data) :=
  match inp with
  | [] => none
  | h :: t =>
    let r := h.key3_from_key2 key2
    let rt := check_rest key2 r.1 t
    some (rt.1, r.1, r.2 :: rt.2)

/-- The submask loop of `main`, entered with the current `submask`. The result
`NotFound` stands for leaving the loop with `verified == false`. -/
def search_loop (unknown_mask known_bits : Nat) (submask : Nat) (inp : input_data) :
    Option (search_result × input_data) :=
  if _h : submask = 0 then some (search_result.NotFound, inp)
  else
    match try_key2 inp (submask ||| known_bits) with
    | none => none
    | some (true, key3, inp1) => some (search_result.Found (submask ||| known_bits) key3, inp1)
    | some (false, _, inp1) =>
      search_loop unknown_mask known_bits (sub32 submask 1 &&& unknown_mask) inp1
termination_by submask
decreasing_by
  have h1 : sub32 submask 1 &&& unknown_mask ≤ sub32 submask 1 := Nat.and_le_left
  have h2 : sub32 submask 1 < submask := by
    unfold sub32
    omega
  omega

/-- The candidate search of `main`: the submask loop followed, when nothing was
verified, by the trial of `key2 = known_bits`. -/
def candidate_search (unknown_mask known_bits : Nat) (inp : input_data) :
    Option search_result :=
  match search_loop unknown_mask known_bits unknown_mask inp with
  | none => none
  | some (search_result.Found key2 key3, _) => some (search_result.Found key2 key3)
  | some (search_result.NotFound, inp1) =>
    match try_key2 inp1 known_bits with
    | none => none
    | some (true, key3, _) => some (search_result.Found known_bits key3)
    | some (false, _, _) => some search_result.NotFound

/-- The function `main` on a table of raw inputs: bitmap, fast solver,
candidate search. -/
def main (raw : List (Nat × Nat × Nat × Nat)) : Option search_result :=
  let inputs := load_inputs raw
  let built := bitmap.build inputs
  let solvable_bits := built.2.solvable_bits
  match fast_solver built.1 built.2 solvable_bits with
  | none => none
  | some key2 =>
    let unknown_mask := not32 solvable_bits
    let known_bits := key2 &&& solvable_bits
    candidate_search unknown_mask known_bits built.1

/-! ## Definitions used to state and prove the properties -/

/-- The value `calc_diff_term` stores, as a function of the four traced words:
`b - b_prime - (a << 4) - ((a >> 5) ^ sum)`. -/
def diff_of (a b sum b_prime : Nat) : Nat :=
  sub32 (sub32 (sub32 b b_prime) (shl32 a 4)) ((a >>> 5) ^^^ sum)

/-- The half-round equation of `main.cpp`, solved for `b_prime`:
`b - ((a << 4) + (key2 ^ a) + ((a >> 5) ^ sum) + key3)`. -/
def forward (a b sum key2 key3 : Nat) : Nat :=
  sub32 b (add32 (add32 (add32 (shl32 a 4) (key2 ^^^ a)) ((a >>> 5) ^^^ sum)) key3)

/-- The values `submask` takes in the loop
`for (submask = unknown_mask; submask != 0; submask = (submask - 1) & unknown_mask)`
when the loop is entered with `submask` and never left by `break`. -/
def submask_loop (unknown_mask : Nat) (submask : Nat) : List Nat :=
  if _h : submask = 0 then []
  else submask :: submask_loop unknown_mask (sub32 submask 1 &&& unknown_mask)
termination_by submask
decreasing_by
  have h1 : sub32 submask 1 &&& unknown_mask ≤ sub32 submask 1 := Nat.and_le_left
  have h2 : sub32 submask 1 < submask := by
    unfold sub32
    omega
  omega

/-- The submasks tried by `main`: those of the loop, then the explicit case
`submask == 0`. -/
def submask_seq (unknown_mask : Nat) : List Nat :=
  submask_loop unknown_mask unknown_mask ++ [0]

/-- Number of set bits of a 32-bit word. -/
def popcount (m : Nat) : Nat := ((List.range 32).filter fun i => m.testBit i).length

/-- The first `j` iterations of the inner loop of the constructor on the
observation at `it`. -/
def scan_bits (it : Nat) (s0 : scan_state) (j : Nat) : scan_state :=
  (List.range j).foldl (bitmap.scan_bit it) s0

/-- Whether bit `bit` of `a` fills a slot that the masks `ones`, `zeros` show empty. -/
def fills (a ones zeros bit : Nat) : Bool :=
  (a.testBit bit && !ones.testBit bit) || (!a.testBit bit && !zeros.testBit bit)

/-- What the first `j` iterations of the inner loop have done. -/
structure scan_bits_post (it : Nat) (s0 s : scan_state) (j : Nat) : Prop where
  a_eq : s.a = s0.a >>> j
  iters_len : s.map.input_iters.length = s0.map.input_iters.length
  ones : ∀ bit, s.map.ones_mask.testBit bit =
    (s0.map.ones_mask.testBit bit || (decide (bit < j) && s0.a.testBit bit))
  zeros : ∀ bit, s.map.zeros_mask.testBit bit =
    (s0.map.zeros_mask.testBit bit || (decide (bit < j) && !s0.a.testBit bit))
  one : ∀ bit, (s.map.at bit).one =
    if bit < j ∧ s0.a.testBit bit = true ∧ s0.map.ones_mask.testBit bit = false then some it
    else (s0.map.at bit).one
  zero : ∀ bit, (s.map.at bit).zero =
    if bit < j ∧ s0.a.testBit bit = false ∧ s0.map.zeros_mask.testBit bit = false then some it
    else (s0.map.at bit).zero
  inp_filled : (∃ bit, bit < j ∧ fills s0.a s0.map.ones_mask s0.map.zeros_mask bit = true) →
    s.inp = calc_at s0.inp it
  inp_same : (¬ ∃ bit, bit < j ∧ fills s0.a s0.map.ones_mask s0.map.zeros_mask bit = true) →
    s.inp = s0.inp

/-- Position `i` holds the earliest observation of `orig` whose `a` has bit `bit`
equal to `v`. -/
def first_with (orig : input_data) (bit : Nat) (v : Bool) (i : Nat) : Prop :=
  (∃ h, orig[i]? = some h ∧ h.a.testBit bit = v) ∧
    ∀ i2 h2, i2 < i → orig[i2]? = some h2 → h2.a.testBit bit = !v

/-- State of the constructor after it has scanned the first `k` observations of
`orig`: every slot holds the earliest matching observation among them, the masks
mark the filled slots, and exactly the referenced observations have had
`calc_diff_term` called. -/
structure scanned (orig : input_data) (k : Nat) (inp : input_data) (m : bitmap) : Prop where
  k_le : k ≤ orig.length
  len : inp.length = orig.length
  iters_len : m.input_iters.length = 31
  one_iff : ∀ bit i, (m.at bit).one = some i ↔ (bit < 31 ∧ i < k ∧ first_with orig bit true i)
  zero_iff : ∀ bit i, (m.at bit).zero = some i ↔ (bit < 31 ∧ i < k ∧ first_with orig bit false i)
  ones : ∀ bit, m.ones_mask.testBit bit = true ↔ ∃ i, (m.at bit).one = some i
  zeros : ∀ bit, m.zeros_mask.testBit bit = true ↔ ∃ i, (m.at bit).zero = some i
  cached : ∀ i, (∃ bit, (m.at bit).one = some i ∨ (m.at bit).zero = some i) →
    inp[i]? = orig[i]?.map half_round.calc_diff_term
  same : ∀ i, (¬ ∃ bit, (m.at bit).one = some i ∨ (m.at bit).zero = some i) →
    inp[i]? = orig[i]?

/-- The four traced words of an observation. -/
def raw_of (h : half_round) : Nat × Nat × Nat × Nat := (h.a, h.b, h.sum, h.b_prime)

/-- The memoised difference term, when present, is the value `calc_diff_term`
computes: the states an observation can reach from its constructor. -/
def memo_ok (h : half_round) : Prop :=
  h.diff_term_set = true → h.diff_term = diff_of h.a h.b h.sum h.b_prime

/-- The value `key3_from_key2(key2)` returns on an observation with traced words
`r`. -/
def k3_raw (r : Nat × Nat × Nat × Nat) (key2 : Nat) : Nat :=
  sub32 (diff_of r.1 r.2.1 r.2.2.1 r.2.2.2) (key2 ^^^ r.1)

/-- The test a candidate `key2` passes in `main`: every observation after the
first yields the same `key3` as the first. -/
def accepts (raw : List (Nat × Nat × Nat × Nat)) (key2 : Nat) : Bool :=
  match raw with
  | [] => true
  | r :: t => t.all fun x => decide (k3_raw x key2 = k3_raw r key2)

/-- The outcome of trying the submasks of `l` in order: the first accepted
candidate with the `key3` of the first observation. -/
def loop_result (raw : List (Nat × Nat × Nat × Nat)) (known_bits : Nat) (l : List Nat) :
    search_result :=
  match raw, l.find? (fun s => accepts raw (s ||| known_bits)) with
  | r :: _, some s => search_result.Found (s ||| known_bits) (k3_raw r (s ||| known_bits))
  | _, _ => search_result.NotFound

/-- The outcome of the candidate search as a function of the traced words: the
first accepted candidate in the order of `submask_seq`. -/
def search_spec (raw : List (Nat × Nat × Nat × Nat)) (unknown_mask known_bits : Nat) :
    search_result :=
  loop_result raw known_bits (submask_seq unknown_mask)

/-- A two-observation dataset computed forward from `key2 = 0x12345678`,
`key3 = 0x9abcdef0`; its `a` values `0` and `0x7fffffff` cover all 31 low bits. -/
def msb_clear_inputs : List (Nat × Nat × Nat × Nat) :=
  [ (0, 0x11111111, 0x22222222, 0x41fdb987),
    (0x7fffffff, 0x33333333, 0x44444444, 0xe2eeef11) ]

/-- The outer loop of the constructor with the early `break` removed: every
observation from position `it` on is scanned. -/
def bitmap.scan_from_nobreak : Nat → Nat → input_data → bitmap → input_data × bitmap
  | 0, _, inp, m => (inp, m)
  | n + 1, it, inp, m =>
    let r := bitmap.scan_entry inp m it
    bitmap.scan_from_nobreak n (it + 1) r.1 r.2

/-- The constructor `bitmap::bitmap` with the early `break` removed. -/
def bitmap.build_nobreak (inp : input_data) : input_data × bitmap :=
  bitmap.scan_from_nobreak inp.length 0 inp bitmap.empty

/-! ## Difference term and the two verification paths -/

theorem add32_lt (x y : Nat) : add32 x y < 2 ^ 32 := Nat.mod_lt _ (by decide)

theorem sub32_lt (x y : Nat) : sub32 x y < 2 ^ 32 := Nat.mod_lt _ (by decide)

theorem shl32_lt (x n : Nat) : shl32 x n < 2 ^ 32 := Nat.mod_lt _ (by decide)

theorem add32_comm (p q : Nat) : add32 p q = add32 q p := by
  unfold add32
  rw [Nat.add_comm]

theorem add32_right_comm (p q r : Nat) : add32 (add32 p q) r = add32 (add32 p r) q := by
  unfold add32
  omega

theorem sub32_add32 (p q r : Nat) : sub32 p (add32 q r) = sub32 (sub32 p q) r := by
  unfold sub32 add32
  omega

theorem sub32_right_comm (p q r : Nat) : sub32 (sub32 p q) r = sub32 (sub32 p r) q := by
  unfold sub32
  omega

theorem sub32_eq_iff (w p q : Nat) (hp : p < 2 ^ 32) (hq : q < 2 ^ 32) :
    sub32 w p = q ↔ sub32 w q = p := by
  unfold sub32
  omega

theorem sub32_sub32_self (b t : Nat) (ht : t < 2 ^ 32) : sub32 b (sub32 b t) = t := by
  unfold sub32
  omega

theorem sub32_add32_cancel (p q : Nat) : sub32 (add32 p q) q = p % 2 ^ 32 := by
  unfold sub32 add32
  omega

theorem sub32_add32_left_cancel (p q : Nat) : sub32 (add32 p q) p = q % 2 ^ 32 := by
  unfold sub32 add32
  omega

theorem sub32_add32_add32 (x y k : Nat) : sub32 (add32 x k) (add32 y k) = sub32 x y := by
  unfold sub32 add32
  omega

theorem sub32_add_cancel (x y : Nat) : (sub32 x y + y) % 2 ^ 32 = x % 2 ^ 32 := by
  unfold sub32
  omega

theorem forward_eq (a b sum key2 key3 : Nat) :
    forward a b sum key2 key3 =
      sub32 (sub32 (sub32 (sub32 b (shl32 a 4)) (key2 ^^^ a)) ((a >>> 5) ^^^ sum)) key3 := by
  unfold forward
  rw [sub32_add32, sub32_add32, sub32_add32]

theorem diff_of_forward (a b sum key2 key3 : Nat) :
    diff_of a b sum (forward a b sum key2 key3) = add32 (key2 ^^^ a) key3 := by
  unfold diff_of forward
  rw [sub32_sub32_self _ _ (add32_lt _ _)]
  rw [add32_comm (shl32 a 4), add32_right_comm (key2 ^^^ a),
    add32_right_comm (add32 (key2 ^^^ a) _), add32_right_comm (key2 ^^^ a)]
  rw [sub32_add32_cancel, Nat.mod_eq_of_lt (add32_lt _ _), sub32_add32_cancel,
    Nat.mod_eq_of_lt (add32_lt _ _)]

theorem calc_diff_term_new (a b sum b_prime : Nat) :
    (half_round.new a b sum b_prime).calc_diff_term =
      { a := a, b := b, sum := sum, b_prime := b_prime,
        diff_term := diff_of a b sum b_prime, diff_term_set := true } := rfl

theorem key3_from_key2_new (a b sum b_prime key2 : Nat) :
    ((half_round.new a b sum b_prime).key3_from_key2 key2).1 =
      sub32 (diff_of a b sum b_prime) (key2 ^^^ a) := rfl

theorem key3_from_key2_cached (a b sum b_prime key2 : Nat) :
    ((half_round.new a b sum b_prime).calc_diff_term.key3_from_key2 key2).1 =
      sub32 (diff_of a b sum b_prime) (key2 ^^^ a) := rfl

theorem verify_keys_eq (h : half_round) (key2 key3 : Nat) :
    h.verify_keys key2 key3 = decide (forward h.a h.b h.sum key2 key3 = h.b_prime) := by
  unfold half_round.verify_keys forward
  by_cases h1 : sub32 h.b (add32 (add32 (add32 (shl32 h.a 4) (key2 ^^^ h.a))
      ((h.a >>> 5) ^^^ h.sum)) key3) = h.b_prime
  · simp only [h1, if_true, decide_True]
  · simp only [h1, if_false, decide_False]

theorem forward_eq_iff (a b sum b_prime key2 key3 : Nat) (hbp : b_prime < 2 ^ 32)
    (hk3 : key3 < 2 ^ 32) :
    forward a b sum key2 key3 = b_prime ↔ sub32 (diff_of a b sum b_prime) (key2 ^^^ a) = key3 := by
  rw [forward_eq, sub32_eq_iff _ _ _ hk3 hbp]
  unfold diff_of
  rw [sub32_right_comm _ ((a >>> 5) ^^^ sum) b_prime, sub32_right_comm _ (key2 ^^^ a) b_prime,
    sub32_right_comm _ (shl32 a 4) b_prime,
    sub32_right_comm _ (key2 ^^^ a) ((a >>> 5) ^^^ sum)]

/-! ## Submask enumeration -/

theorem sub32_one {s : Nat} (h0 : s ≠ 0) (h : s < 2 ^ 32) : sub32 s 1 = s - 1 := by
  unfold sub32
  omega

theorem and_mask_idem (x m : Nat) : (x &&& m) &&& m = x &&& m := by
  rw [Nat.and_assoc, Nat.and_self]

theorem submask_le {u m : Nat} (h : u &&& m = u) : u ≤ m := by
  rw [← h]
  exact Nat.and_le_right

theorem submask_mod_two {u m : Nat} (h : u &&& m = u) (hu : u % 2 = 1) : m % 2 = 1 := by
  have h1 : (u &&& m) % 2 = 1 := by rw [h]; exact hu
  exact (Nat.and_mod_two_eq_one.1 h1).2

theorem submask_div_two {u m : Nat} (h : u &&& m = u) : u / 2 &&& m / 2 = u / 2 := by
  rw [← Nat.and_div_two, h]

/-- Below a nonzero subset `s` of `m`, every subset of `m` is at most
`(s - 1) & m`. -/
theorem submask_pred_greatest (s : Nat) :
    ∀ m u : Nat, s &&& m = s → u &&& m = u → u < s → u ≤ (s - 1) &&& m := by
  induction s using Nat.strong_induction_on with
  | _ s ih =>
    intro m u hs hu hlt
    have hs2 := submask_div_two hs
    have hu2 := submask_div_two hu
    have ht2 : ((s - 1) &&& m) / 2 = (s - 1) / 2 &&& m / 2 := Nat.and_div_two
    have htm : ((s - 1) &&& m) % 2 = 1 ↔ (s - 1) % 2 = 1 ∧ m % 2 = 1 := Nat.and_mod_two_eq_one
    rcases Nat.mod_two_eq_zero_or_one s with h0 | h1
    · have hlt2 : u / 2 < s / 2 := by omega
      have hrec := ih (s / 2) (by omega) (m / 2) (u / 2) hs2 hu2 hlt2
      have he : (s - 1) / 2 = s / 2 - 1 := by omega
      rw [he] at ht2
      have hum : u % 2 = 1 → m % 2 = 1 := submask_mod_two hu
      have hs1 : (s - 1) % 2 = 1 := by omega
      omega
    · have he : (s - 1) / 2 = s / 2 := by omega
      rw [he, hs2] at ht2
      omega

theorem submask_loop_zero (m : Nat) : submask_loop m 0 = [] := by
  rw [submask_loop]; simp

theorem submask_loop_pos (m : Nat) {s : Nat} (h : s ≠ 0) :
    submask_loop m s = s :: submask_loop m (sub32 s 1 &&& m) := by
  rw [submask_loop]; simp [h]

/-- From a subset `s` of the mask, the loop followed by the value `0` lists, in
strictly decreasing order, exactly the subsets of the mask that are at most `s`. -/
theorem submask_loop_spec (m : Nat) (hm : m < 2 ^ 32) (s : Nat) :
    s &&& m = s →
      (submask_loop m s ++ [0]).Pairwise (fun x y => x > y) ∧
      ∀ u, u ∈ submask_loop m s ++ [0] ↔ (u &&& m = u ∧ u ≤ s) := by
  induction s using Nat.strong_induction_on with
  | _ s ih =>
    intro hs
    by_cases h0 : s = 0
    · subst h0
      rw [submask_loop_zero]
      refine ⟨by simp, ?_⟩
      intro u
      constructor
      · intro hu
        have : u = 0 := by simpa using hu
        subst this
        simp
      · rintro ⟨_, hu⟩
        have : u = 0 := by omega
        simp [this]
    · have hsm : s ≤ m := submask_le hs
      have hs32 : s < 2 ^ 32 := by omega
      rw [submask_loop_pos m h0, sub32_one h0 hs32]
      have ht : (s - 1) &&& m ≤ s - 1 := Nat.and_le_left
      have hrec := ih ((s - 1) &&& m) (by omega) (and_mask_idem _ _)
      obtain ⟨hp, hmem⟩ := hrec
      refine ⟨?_, ?_⟩
      · rw [List.cons_append, List.pairwise_cons]
        refine ⟨?_, hp⟩
        intro u hu
        have := ((hmem u).1 hu).2
        omega
      · intro u
        rw [List.cons_append, List.mem_cons, hmem u]
        constructor
        · rintro (rfl | ⟨h1, h2⟩)
          · exact ⟨hs, le_refl _⟩
          · exact ⟨h1, by omega⟩
        · rintro ⟨h1, h2⟩
          by_cases hus : u = s
          · exact Or.inl hus
          · exact Or.inr ⟨h1, submask_pred_greatest s m u hs h1 (by omega)⟩

theorem submask_seq_mem (m : Nat) (hm : m < 2 ^ 32) (u : Nat) :
    u ∈ submask_seq m ↔ u &&& m = u := by
  unfold submask_seq
  rw [(submask_loop_spec m hm m (Nat.and_self m)).2 u]
  exact ⟨fun h => h.1, fun h => ⟨h, submask_le h⟩⟩

theorem submask_seq_pairwise (m : Nat) (hm : m < 2 ^ 32) :
    (submask_seq m).Pairwise (fun x y => x > y) :=
  (submask_loop_spec m hm m (Nat.and_self m)).1

theorem submask_seq_nodup (m : Nat) (hm : m < 2 ^ 32) : (submask_seq m).Nodup := by
  have h := submask_seq_pairwise m hm
  unfold List.Nodup
  exact h.imp (fun hxy => by omega)

theorem submask_iff_testBit (u m : Nat) :
    u &&& m = u ↔ ∀ i, u.testBit i = true → m.testBit i = true := by
  constructor
  · intro h i hi
    have : (u &&& m).testBit i = true := by rw [h]; exact hi
    rw [Nat.testBit_and] at this
    simp only [Bool.and_eq_true] at this
    exact this.2
  · intro h
    apply Nat.eq_of_testBit_eq
    intro i
    rw [Nat.testBit_and]
    cases hu : u.testBit i
    · simp
    · simp [h i hu]

theorem testBit_two_pow_add_of_lt {k u : Nat} (hu : u < 2 ^ k) (i : Nat) :
    (2 ^ k + u).testBit i = (decide (i = k) || u.testBit i) := by
  rcases Nat.lt_trichotomy i k with h | h | h
  · rw [Nat.testBit_two_pow_add_gt h]
    simp [Nat.ne_of_lt h]
  · subst h
    rw [Nat.testBit_two_pow_add_eq, Nat.testBit_lt_two_pow hu]
    simp
  · have h1 : 2 ^ k + u < 2 ^ i := by
      have : 2 ^ (k + 1) ≤ 2 ^ i := Nat.pow_le_pow_right (by decide) h
      rw [Nat.pow_succ] at this
      omega
    have h2 : u < 2 ^ i := by omega
    rw [Nat.testBit_lt_two_pow h1, Nat.testBit_lt_two_pow h2]
    simp [Nat.ne_of_gt h]

theorem submask_two_pow_add {k u : Nat} (hu : u < 2 ^ k) (m : Nat) :
    (2 ^ k + u) &&& m = 2 ^ k + u ↔ (m.testBit k = true ∧ u &&& m = u) := by
  rw [submask_iff_testBit, submask_iff_testBit]
  constructor
  · intro h
    refine ⟨h k (by rw [testBit_two_pow_add_of_lt hu]; simp), ?_⟩
    intro i hi
    exact h i (by rw [testBit_two_pow_add_of_lt hu, hi]; simp)
  · rintro ⟨hk, h⟩ i hi
    rw [testBit_two_pow_add_of_lt hu] at hi
    simp only [Bool.or_eq_true, decide_eq_true_eq] at hi
    rcases hi with rfl | hi
    · exact hk
    · exact h i hi

/-- Among the numbers below `2 ^ k`, the subsets of `m` number two to the count
of set bits of `m` below position `k`. -/
theorem submask_count (m : Nat) (k : Nat) :
    ((List.range (2 ^ k)).filter fun u => decide (u &&& m = u)).length =
      2 ^ ((List.range k).filter fun i => m.testBit i).length := by
  induction k with
  | zero =>
    have h1 : List.range (2 ^ 0) = [0] := rfl
    rw [h1]
    simp
  | succ k ih =>
    have hr : List.range (2 ^ (k + 1)) =
        List.range (2 ^ k) ++ (List.range (2 ^ k)).map (fun u => 2 ^ k + u) := by
      rw [← List.range_add]
      congr 1
      rw [Nat.pow_succ]
      omega
    rw [hr, List.filter_append, List.length_append, List.filter_map, List.length_map,
      List.range_succ, List.filter_append, List.length_append]
    have hc : (List.range (2 ^ k)).filter ((fun u => decide (u &&& m = u)) ∘ fun u => 2 ^ k + u) =
        (List.range (2 ^ k)).filter fun u => (m.testBit k && decide (u &&& m = u)) := by
      apply List.filter_congr
      intro u hu
      have hu1 : u < 2 ^ k := List.mem_range.1 hu
      have := submask_two_pow_add hu1 m
      simp only [Function.comp]
      by_cases hk : m.testBit k = true <;> by_cases hs : u &&& m = u <;> simp_all
    rw [hc]
    cases hk : m.testBit k
    · simp [ih, hk, List.filter_cons]
    · simp [ih, hk, List.filter_cons, Nat.pow_succ]
      omega

theorem submask_seq_length (m : Nat) (hm : m < 2 ^ 32) :
    (submask_seq m).length = 2 ^ popcount m := by
  unfold popcount
  rw [← submask_count m 32]
  apply List.Perm.length_eq
  rw [List.perm_ext_iff_of_nodup (submask_seq_nodup m hm)
    ((List.nodup_range _).filter _)]
  intro u
  rw [submask_seq_mem m hm, List.mem_filter, List.mem_range]
  simp only [decide_eq_true_eq]
  constructor
  · intro h
    exact ⟨by have := submask_le h; omega, h⟩
  · exact fun h => h.2

/-! ## The bitmap constructor -/

theorem and_one_ne_zero_iff (x : Nat) : x &&& 1 ≠ 0 ↔ x.testBit 0 = true := by
  rw [Nat.and_one_is_mod, Nat.testBit_zero]
  simp

theorem shiftRight_and_one_ne_zero_iff (x n : Nat) :
    (x >>> n) &&& 1 ≠ 0 ↔ x.testBit n = true := by
  rw [and_one_ne_zero_iff, Nat.testBit_shiftRight]
  simp

theorem shl32_one {bit : Nat} (h : bit < 32) : shl32 1 bit = 2 ^ bit := by
  unfold shl32
  rw [Nat.one_shiftLeft]
  exact Nat.mod_eq_of_lt (Nat.pow_lt_pow_right (by decide) h)

theorem testBit_or_two_pow (x bit i : Nat) :
    (x ||| 2 ^ bit).testBit i = (x.testBit i || decide (bit = i)) := by
  rw [Nat.testBit_or, Nat.testBit_two_pow]

theorem at_modify (l : List bit_info) (f : bit_info → bit_info) (bit i : Nat)
    (hbit : bit < l.length) :
    (l.modify f bit).getD i default = if bit = i then f (l.getD i default) else l.getD i default := by
  rw [List.getD_eq_getElem?_getD, List.getD_eq_getElem?_getD, List.getElem?_modify]
  by_cases h : bit = i
  · subst h
    rw [List.getElem?_eq_getElem hbit]
    simp
  · simp [h]

theorem scan_bits_succ (it : Nat) (s0 : scan_state) (j : Nat) :
    scan_bits it s0 (j + 1) = bitmap.scan_bit it (scan_bits it s0 j) j := by
  unfold scan_bits
  rw [List.range_succ, List.foldl_append]
  rfl

theorem scan_bit_one_new (it : Nat) (s : scan_state) (bit : Nat) (hA : s.a &&& 1 ≠ 0)
    (hO : ¬ ((s.map.ones_mask >>> bit) &&& 1 ≠ 0)) :
    bitmap.scan_bit it s bit =
      { inp := calc_at s.inp it
        map :=
          { input_iters := s.map.input_iters.modify (fun e => { e with one := some it }) bit
            ones_mask := s.map.ones_mask ||| shl32 1 bit
            zeros_mask := s.map.zeros_mask }
        a := s.a >>> 1 } := by
  unfold bitmap.scan_bit
  rw [if_pos hA, if_pos hO]

theorem scan_bit_zero_new (it : Nat) (s : scan_state) (bit : Nat) (hA : ¬ (s.a &&& 1 ≠ 0))
    (hZ : ¬ ((s.map.zeros_mask >>> bit) &&& 1 ≠ 0)) :
    bitmap.scan_bit it s bit =
      { inp := calc_at s.inp it
        map :=
          { input_iters := s.map.input_iters.modify (fun e => { e with zero := some it }) bit
            ones_mask := s.map.ones_mask
            zeros_mask := s.map.zeros_mask ||| shl32 1 bit }
        a := s.a >>> 1 } := by
  unfold bitmap.scan_bit
  rw [if_neg hA, if_pos hZ]

theorem scan_bit_one_old (it : Nat) (s : scan_state) (bit : Nat) (hA : s.a &&& 1 ≠ 0)
    (hO : (s.map.ones_mask >>> bit) &&& 1 ≠ 0) :
    bitmap.scan_bit it s bit = { inp := s.inp, map := s.map, a := s.a >>> 1 } := by
  unfold bitmap.scan_bit
  rw [if_pos hA, if_neg (not_not_intro hO)]

theorem scan_bit_zero_old (it : Nat) (s : scan_state) (bit : Nat) (hA : ¬ (s.a &&& 1 ≠ 0))
    (hZ : (s.map.zeros_mask >>> bit) &&& 1 ≠ 0) :
    bitmap.scan_bit it s bit = { inp := s.inp, map := s.map, a := s.a >>> 1 } := by
  unfold bitmap.scan_bit
  rw [if_neg hA, if_neg (not_not_intro hZ)]

theorem calc_diff_term_idem (h : half_round) :
    h.calc_diff_term.calc_diff_term = h.calc_diff_term := by
  unfold half_round.calc_diff_term
  cases hs : h.diff_term_set <;> simp [hs]

theorem calc_at_idem (inp : input_data) (it : Nat) :
    calc_at (calc_at inp it) it = calc_at inp it := by
  unfold calc_at
  rw [List.modify_modify_eq]
  congr 1
  funext h
  exact calc_diff_term_idem h

theorem scan_bits_spec (it : Nat) (s0 : scan_state) (hlen : s0.map.input_iters.length = 31) :
    ∀ j, j ≤ 31 → scan_bits_post it s0 (scan_bits it s0 j) j := by
  intro j
  induction j with
  | zero =>
    intro _
    refine ⟨rfl, rfl, ?_, ?_, ?_, ?_, ?_, ?_⟩ <;> simp [scan_bits]
  | succ j ih =>
    intro hj
    have p := ih (by omega)
    rw [scan_bits_succ]
    generalize scan_bits it s0 j = s at p
    have hj32 : j < 32 := by omega
    have hjl : j < s.map.input_iters.length := by rw [p.iters_len, hlen]; omega
    have ha : (s.a &&& 1 ≠ 0) ↔ s0.a.testBit j = true := by
      rw [p.a_eq]; exact shiftRight_and_one_ne_zero_iff _ _
    have ho : ((s.map.ones_mask >>> j) &&& 1 ≠ 0) ↔
        s0.map.ones_mask.testBit j = true := by
      rw [shiftRight_and_one_ne_zero_iff, p.ones]; simp
    have hz : ((s.map.zeros_mask >>> j) &&& 1 ≠ 0) ↔
        s0.map.zeros_mask.testBit j = true := by
      rw [shiftRight_and_one_ne_zero_iff, p.zeros]; simp
    have hsh : ∀ x : Nat, (x >>> j) >>> 1 = x >>> (j + 1) := fun x => by
      rw [Nat.shiftRight_add]
    have hlt : ∀ bit, decide (bit < j + 1) = (decide (bit < j) || decide (bit = j)) := by
      intro bit
      by_cases h1 : bit < j <;> by_cases h2 : bit = j <;> simp [h1, h2] <;> omega
    have hinp : s.inp = s0.inp ∨ s.inp = calc_at s0.inp it := by
      by_cases hex : ∃ bit, bit < j ∧ fills s0.a s0.map.ones_mask s0.map.zeros_mask bit = true
      · exact Or.inr (p.inp_filled hex)
      · exact Or.inl (p.inp_same hex)
    have hcalc : calc_at s.inp it = calc_at s0.inp it := by
      rcases hinp with h | h
      · rw [h]
      · rw [h, calc_at_idem]
    have hex_succ : (∃ bit, bit < j + 1 ∧ fills s0.a s0.map.ones_mask s0.map.zeros_mask bit = true) ↔
        ((∃ bit, bit < j ∧ fills s0.a s0.map.ones_mask s0.map.zeros_mask bit = true) ∨
          fills s0.a s0.map.ones_mask s0.map.zeros_mask j = true) := by
      constructor
      · rintro ⟨bit, hb, hf⟩
        by_cases hbj : bit = j
        · subst hbj; exact Or.inr hf
        · exact Or.inl ⟨bit, by omega, hf⟩
      · rintro (⟨bit, hb, hf⟩ | hf)
        · exact ⟨bit, by omega, hf⟩
        · exact ⟨j, by omega, hf⟩
    by_cases hA : s0.a.testBit j = true
    · have hA1 := ha.2 hA
      by_cases hO : s0.map.ones_mask.testBit j = true
      · have hO1 := ho.2 hO
        have hnf : fills s0.a s0.map.ones_mask s0.map.zeros_mask j = false := by
          simp [fills, hA, hO]
        rw [scan_bit_one_old it s j hA1 hO1]
        refine ⟨?_, p.iters_len, ?_, ?_, ?_, ?_, ?_, ?_⟩
        · show s.a >>> 1 = _
          rw [p.a_eq, hsh]
        · intro bit
          show s.map.ones_mask.testBit bit = _
          rw [p.ones, hlt]
          by_cases hb : bit = j
          · subst hb; simp [hA, hO]
          · simp [hb]
        · intro bit
          show s.map.zeros_mask.testBit bit = _
          rw [p.zeros, hlt]
          by_cases hb : bit = j
          · subst hb; simp [hA]
          · simp [hb]
        · intro bit
          show (s.map.at bit).one = _
          rw [p.one]
          by_cases hb : bit = j
          · subst hb; simp [hO]
          · have : bit < j + 1 ↔ bit < j := by omega
            simp only [this]
        · intro bit
          show (s.map.at bit).zero = _
          rw [p.zero]
          by_cases hb : bit = j
          · subst hb; simp [hA]
          · have : bit < j + 1 ↔ bit < j := by omega
            simp only [this]
        · intro hex
          show s.inp = _
          rw [hex_succ, hnf] at hex
          exact p.inp_filled (by simpa using hex)
        · intro hex
          show s.inp = _
          rw [hex_succ, hnf] at hex
          exact p.inp_same (by simpa using hex)
      · have hO1 : ¬ ((s.map.ones_mask >>> j) &&& 1 ≠ 0) := fun h => hO (ho.1 h)
        have hO0 : s0.map.ones_mask.testBit j = false := by simpa using hO
        have hf : fills s0.a s0.map.ones_mask s0.map.zeros_mask j = true := by
          simp [fills, hA, hO0]
        rw [scan_bit_one_new it s j hA1 hO1]
        refine ⟨?_, ?_, ?_, ?_, ?_, ?_, ?_, ?_⟩
        · show s.a >>> 1 = _
          rw [p.a_eq, hsh]
        · show (s.map.input_iters.modify _ j).length = _
          rw [List.length_modify, p.iters_len]
        · intro bit
          show (s.map.ones_mask ||| shl32 1 j).testBit bit = _
          rw [shl32_one hj32, testBit_or_two_pow, p.ones, hlt]
          by_cases hb : bit = j
          · subst hb; simp [hA]
          · have : ¬ j = bit := fun h => hb h.symm
            simp [hb, this]
        · intro bit
          show s.map.zeros_mask.testBit bit = _
          rw [p.zeros, hlt]
          by_cases hb : bit = j
          · subst hb; simp [hA]
          · simp [hb]
        · intro bit
          show ((s.map.input_iters.modify _ j).getD bit default).one = _
          rw [at_modify _ _ _ _ hjl]
          by_cases hb : j = bit
          · subst hb; simp [hA, hO0]
          · have h1 : bit < j + 1 ↔ bit < j := by omega
            simp only [hb, if_false, h1]
            exact p.one bit
        · intro bit
          show ((s.map.input_iters.modify _ j).getD bit default).zero = _
          rw [at_modify _ _ _ _ hjl]
          have h0 : (s.map.input_iters.getD bit default).zero = (s.map.at bit).zero := rfl
          by_cases hb : j = bit
          · subst hb
            simp only [if_true, h0, p.zero]
            simp [hA]
          · have h1 : bit < j + 1 ↔ bit < j := by omega
            simp only [hb, if_false, h1]
            exact p.zero bit
        · intro _
          exact hcalc
        · intro hex
          exact absurd (hex_succ.2 (Or.inr hf)) hex
    · have hA0 : s0.a.testBit j = false := by simpa using hA
      have hA1 : ¬ (s.a &&& 1 ≠ 0) := fun h => hA (ha.1 h)
      by_cases hZ : s0.map.zeros_mask.testBit j = true
      · have hZ1 := hz.2 hZ
        have hnf : fills s0.a s0.map.ones_mask s0.map.zeros_mask j = false := by
          simp [fills, hA0, hZ]
        rw [scan_bit_zero_old it s j hA1 hZ1]
        refine ⟨?_, p.iters_len, ?_, ?_, ?_, ?_, ?_, ?_⟩
        · show s.a >>> 1 = _
          rw [p.a_eq, hsh]
        · intro bit
          show s.map.ones_mask.testBit bit = _
          rw [p.ones, hlt]
          by_cases hb : bit = j
          · subst hb; simp [hA0]
          · simp [hb]
        · intro bit
          show s.map.zeros_mask.testBit bit = _
          rw [p.zeros, hlt]
          by_cases hb : bit = j
          · subst hb; simp [hA0, hZ]
          · simp [hb]
        · intro bit
          show (s.map.at bit).one = _
          rw [p.one]
          by_cases hb : bit = j
          · subst hb; simp [hA0]
          · have : bit < j + 1 ↔ bit < j := by omega
            simp only [this]
        · intro bit
          show (s.map.at bit).zero = _
          rw [p.zero]
          by_cases hb : bit = j
          · subst hb; simp [hZ]
          · have : bit < j + 1 ↔ bit < j := by omega
            simp only [this]
        · intro hex
          show s.inp = _
          rw [hex_succ, hnf] at hex
          exact p.inp_filled (by simpa using hex)
        · intro hex
          show s.inp = _
          rw [hex_succ, hnf] at hex
          exact p.inp_same (by simpa using hex)
      · have hZ1 : ¬ ((s.map.zeros_mask >>> j) &&& 1 ≠ 0) := fun h => hZ (hz.1 h)
        have hZ0 : s0.map.zeros_mask.testBit j = false := by simpa using hZ
        have hf : fills s0.a s0.map.ones_mask s0.map.zeros_mask j = true := by
          simp [fills, hA0, hZ0]
        rw [scan_bit_zero_new it s j hA1 hZ1]
        refine ⟨?_, ?_, ?_, ?_, ?_, ?_, ?_, ?_⟩
        · show s.a >>> 1 = _
          rw [p.a_eq, hsh]
        · show (s.map.input_iters.modify _ j).length = _
          rw [List.length_modify, p.iters_len]
        · intro bit
          show s.map.ones_mask.testBit bit = _
          rw [p.ones, hlt]
          by_cases hb : bit = j
          · subst hb; simp [hA0]
          · simp [hb]
        · intro bit
          show (s.map.zeros_mask ||| shl32 1 j).testBit bit = _
          rw [shl32_one hj32, testBit_or_two_pow, p.zeros, hlt]
          by_cases hb : bit = j
          · subst hb; simp [hA0]
          · have : ¬ j = bit := fun h => hb h.symm
            simp [hb, this]
        · intro bit
          show ((s.map.input_iters.modify _ j).getD bit default).one = _
          rw [at_modify _ _ _ _ hjl]
          have h0 : (s.map.input_iters.getD bit default).one = (s.map.at bit).one := rfl
          by_cases hb : j = bit
          · subst hb
            simp only [if_true, h0, p.one]
            simp [hA0]
          · have h1 : bit < j + 1 ↔ bit < j := by omega
            simp only [hb, if_false, h1]
            exact p.one bit
        · intro bit
          show ((s.map.input_iters.modify _ j).getD bit default).zero = _
          rw [at_modify _ _ _ _ hjl]
          by_cases hb : j = bit
          · subst hb; simp [hA0, hZ0]
          · have h1 : bit < j + 1 ↔ bit < j := by omega
            simp only [hb, if_false, h1]
            exact p.zero bit
        · intro _
          exact hcalc
        · intro hex
          exact absurd (hex_succ.2 (Or.inr hf)) hex

theorem empty_at (bit : Nat) : bitmap.empty.at bit = { one := none, zero := none } := by
  unfold bitmap.at bitmap.empty
  rw [List.getD_eq_getElem?_getD]
  by_cases h : bit < 31
  · rw [List.getElem?_replicate]
    simp [h]
  · rw [List.getElem?_eq_none (by simpa using h)]
    rfl

theorem scanned_init (orig : input_data) : scanned orig 0 orig bitmap.empty := by
  refine ⟨Nat.zero_le _, rfl, by simp [bitmap.empty], ?_, ?_, ?_, ?_, ?_, ?_⟩
  · intro bit i; rw [empty_at]; simp
  · intro bit i; rw [empty_at]; simp
  · intro bit
    have h0 : bitmap.empty.ones_mask = 0 := rfl
    rw [h0, empty_at]; simp
  · intro bit
    have h0 : bitmap.empty.zeros_mask = 0 := rfl
    rw [h0, empty_at]; simp
  · rintro i ⟨bit, h⟩; rw [empty_at] at h; simp at h
  · intro i _; rfl

/-- If no observation before position `k` is the earliest with bit value `v`,
none before `k` has that bit value. -/
theorem no_first_with (orig : input_data) (bit : Nat) (v : Bool) (k : Nat)
    (hno : ∀ i, i < k → ¬ first_with orig bit v i) :
    ∀ i h, i < k → orig[i]? = some h → h.a.testBit bit = !v := by
  intro i
  induction i using Nat.strong_induction_on with
  | _ i ih =>
    intro h hik hh
    by_contra hne
    apply hno i hik
    refine ⟨⟨h, hh, ?_⟩, ?_⟩
    · cases v <;> cases hb : h.a.testBit bit <;> simp_all
    · intro i2 h2 hi2 hh2
      exact ih i2 hi2 h2 (by omega) hh2

theorem first_with_unique (orig : input_data) (bit : Nat) (v : Bool) (i j : Nat)
    (hi : first_with orig bit v i) (hj : first_with orig bit v j) : i = j := by
  rcases Nat.lt_trichotomy i j with h | h | h
  · obtain ⟨⟨x, hx, hxv⟩, _⟩ := hi
    have := hj.2 i x h hx
    rw [hxv] at this
    cases v <;> simp at this
  · exact h
  · obtain ⟨⟨x, hx, hxv⟩, _⟩ := hj
    have := hi.2 j x h hx
    rw [hxv] at this
    cases v <;> simp at this

theorem calc_diff_term_a (h : half_round) : h.calc_diff_term.a = h.a := by
  unfold half_round.calc_diff_term
  split <;> rfl

theorem scan_entry_eq (inp : input_data) (m : bitmap) (it : Nat) :
    bitmap.scan_entry inp m it =
      ((scan_bits it { inp := inp, map := m, a := (inp.getD it default).a } 31).inp,
       (scan_bits it { inp := inp, map := m, a := (inp.getD it default).a } 31).map) := rfl

theorem scanned_step (orig : input_data) (k : Nat) (inp : input_data) (m : bitmap)
    (hs : scanned orig k inp m) (hk : k < orig.length) :
    scanned orig (k + 1) (bitmap.scan_entry inp m k).1 (bitmap.scan_entry inp m k).2 := by
  obtain ⟨h0, horig⟩ : ∃ h0, orig[k]? = some h0 := ⟨orig[k], List.getElem?_eq_getElem hk⟩
  have hnoref : ¬ ∃ bit, (m.at bit).one = some k ∨ (m.at bit).zero = some k := by
    rintro ⟨bit, h | h⟩
    · have := ((hs.one_iff bit k).1 h).2.1; omega
    · have := ((hs.zero_iff bit k).1 h).2.1; omega
  have hinpk : inp[k]? = some h0 := by rw [hs.same k hnoref, horig]
  have hget : (inp.getD k default).a = h0.a := by
    rw [List.getD_eq_getElem?_getD, hinpk]; rfl
  rw [scan_entry_eq, hget]
  have p := scan_bits_spec k { inp := inp, map := m, a := h0.a } hs.iters_len 31 (le_refl _)
  generalize scan_bits k { inp := inp, map := m, a := h0.a } 31 = s at p
  have pone : ∀ bit, (s.map.at bit).one =
      if bit < 31 ∧ h0.a.testBit bit = true ∧ m.ones_mask.testBit bit = false then some k
      else (m.at bit).one := p.one
  have pzero : ∀ bit, (s.map.at bit).zero =
      if bit < 31 ∧ h0.a.testBit bit = false ∧ m.zeros_mask.testBit bit = false then some k
      else (m.at bit).zero := p.zero
  have pones : ∀ bit, s.map.ones_mask.testBit bit =
      (m.ones_mask.testBit bit || (decide (bit < 31) && h0.a.testBit bit)) := p.ones
  have pzeros : ∀ bit, s.map.zeros_mask.testBit bit =
      (m.zeros_mask.testBit bit || (decide (bit < 31) && !h0.a.testBit bit)) := p.zeros
  -- slots empty before this observation: no earlier observation matches
  have hnone1 : ∀ bit, bit < 31 → m.ones_mask.testBit bit = false →
      ∀ i h, i < k → orig[i]? = some h → h.a.testBit bit = !true := by
    intro bit hb ho
    apply no_first_with
    intro i hik hfw
    have : m.ones_mask.testBit bit = true := (hs.ones bit).2 ⟨i, (hs.one_iff bit i).2 ⟨hb, hik, hfw⟩⟩
    rw [ho] at this; exact Bool.noConfusion this
  have hnone0 : ∀ bit, bit < 31 → m.zeros_mask.testBit bit = false →
      ∀ i h, i < k → orig[i]? = some h → h.a.testBit bit = !false := by
    intro bit hb ho
    apply no_first_with
    intro i hik hfw
    have : m.zeros_mask.testBit bit = true :=
      (hs.zeros bit).2 ⟨i, (hs.zero_iff bit i).2 ⟨hb, hik, hfw⟩⟩
    rw [ho] at this; exact Bool.noConfusion this
  have hone : ∀ bit i, (s.map.at bit).one = some i ↔
      (bit < 31 ∧ i < k + 1 ∧ first_with orig bit true i) := by
    intro bit i
    rw [pone]
    by_cases hc : bit < 31 ∧ h0.a.testBit bit = true ∧ m.ones_mask.testBit bit = false
    · rw [if_pos hc]
      have hfk : first_with orig bit true k :=
        ⟨⟨h0, horig, hc.2.1⟩, fun i2 h2 hi2 hh2 => hnone1 bit hc.1 hc.2.2 i2 h2 hi2 hh2⟩
      constructor
      · intro h
        have : k = i := Option.some.inj h
        subst this
        exact ⟨hc.1, by omega, hfk⟩
      · rintro ⟨_, _, hfi⟩
        rw [first_with_unique orig bit true i k hfi hfk]
    · rw [if_neg hc, hs.one_iff]
      constructor
      · rintro ⟨h1, h2, h3⟩
        exact ⟨h1, by omega, h3⟩
      · rintro ⟨h1, h2, h3⟩
        refine ⟨h1, ?_, h3⟩
        by_contra hik
        have hik2 : i = k := by omega
        subst hik2
        obtain ⟨x, hx, hxv⟩ := h3.1
        rw [horig] at hx
        have hx2 : h0 = x := Option.some.inj hx
        have hxv2 : h0.a.testBit bit = true := by rw [hx2]; exact hxv
        have ho : m.ones_mask.testBit bit = true := by
          by_contra hno
          exact hc ⟨h1, hxv2, by simpa using hno⟩
        obtain ⟨i0, hi0⟩ := (hs.ones bit).1 ho
        obtain ⟨_, hlt, hf0⟩ := (hs.one_iff bit i0).1 hi0
        have := first_with_unique orig bit true i0 i hf0 h3
        omega
  have hzero : ∀ bit i, (s.map.at bit).zero = some i ↔
      (bit < 31 ∧ i < k + 1 ∧ first_with orig bit false i) := by
    intro bit i
    rw [pzero]
    by_cases hc : bit < 31 ∧ h0.a.testBit bit = false ∧ m.zeros_mask.testBit bit = false
    · rw [if_pos hc]
      have hfk : first_with orig bit false k :=
        ⟨⟨h0, horig, hc.2.1⟩, fun i2 h2 hi2 hh2 => hnone0 bit hc.1 hc.2.2 i2 h2 hi2 hh2⟩
      constructor
      · intro h
        have : k = i := Option.some.inj h
        subst this
        exact ⟨hc.1, by omega, hfk⟩
      · rintro ⟨_, _, hfi⟩
        rw [first_with_unique orig bit false i k hfi hfk]
    · rw [if_neg hc, hs.zero_iff]
      constructor
      · rintro ⟨h1, h2, h3⟩
        exact ⟨h1, by omega, h3⟩
      · rintro ⟨h1, h2, h3⟩
        refine ⟨h1, ?_, h3⟩
        by_contra hik
        have hik2 : i = k := by omega
        subst hik2
        obtain ⟨x, hx, hxv⟩ := h3.1
        rw [horig] at hx
        have hx2 : h0 = x := Option.some.inj hx
        have hxv2 : h0.a.testBit bit = false := by rw [hx2]; exact hxv
        have ho : m.zeros_mask.testBit bit = true := by
          by_contra hno
          exact hc ⟨h1, hxv2, by simpa using hno⟩
        obtain ⟨i0, hi0⟩ := (hs.zeros bit).1 ho
        obtain ⟨_, hlt, hf0⟩ := (hs.zero_iff bit i0).1 hi0
        have := first_with_unique orig bit false i0 i hf0 h3
        omega
  have hones : ∀ bit, s.map.ones_mask.testBit bit = true ↔ ∃ i, (s.map.at bit).one = some i := by
    intro bit
    rw [pones, pone]
    by_cases hc : bit < 31 ∧ h0.a.testBit bit = true ∧ m.ones_mask.testBit bit = false
    · rw [if_pos hc]
      simp [hc.1, hc.2.1]
    · rw [if_neg hc, ← hs.ones bit]
      cases ho : m.ones_mask.testBit bit
      · simp only [Bool.false_or, Bool.and_eq_true, decide_eq_true_eq]
        constructor
        · rintro ⟨h1, h2⟩
          exact absurd ⟨h1, h2, ho⟩ hc
        · intro h; exact Bool.noConfusion h
      · simp
  have hzeros : ∀ bit, s.map.zeros_mask.testBit bit = true ↔
      ∃ i, (s.map.at bit).zero = some i := by
    intro bit
    rw [pzeros, pzero]
    by_cases hc : bit < 31 ∧ h0.a.testBit bit = false ∧ m.zeros_mask.testBit bit = false
    · rw [if_pos hc]
      simp [hc.1, hc.2.1]
    · rw [if_neg hc, ← hs.zeros bit]
      cases ho : m.zeros_mask.testBit bit
      · simp only [Bool.false_or, Bool.and_eq_true, decide_eq_true_eq, Bool.not_eq_true']
        constructor
        · rintro ⟨h1, h2⟩
          exact absurd ⟨h1, h2, ho⟩ hc
        · intro h; exact Bool.noConfusion h
      · simp
  have hk_one : ∀ bit, (s.map.at bit).one = some k ↔
      (bit < 31 ∧ h0.a.testBit bit = true ∧ m.ones_mask.testBit bit = false) := by
    intro bit
    rw [pone]
    by_cases hc : bit < 31 ∧ h0.a.testBit bit = true ∧ m.ones_mask.testBit bit = false
    · rw [if_pos hc]; exact ⟨fun _ => hc, fun _ => rfl⟩
    · rw [if_neg hc]
      exact ⟨fun h => absurd ⟨bit, Or.inl h⟩ hnoref, fun h => absurd h hc⟩
  have hk_zero : ∀ bit, (s.map.at bit).zero = some k ↔
      (bit < 31 ∧ h0.a.testBit bit = false ∧ m.zeros_mask.testBit bit = false) := by
    intro bit
    rw [pzero]
    by_cases hc : bit < 31 ∧ h0.a.testBit bit = false ∧ m.zeros_mask.testBit bit = false
    · rw [if_pos hc]; exact ⟨fun _ => hc, fun _ => rfl⟩
    · rw [if_neg hc]
      exact ⟨fun h => absurd ⟨bit, Or.inr h⟩ hnoref, fun h => absurd h hc⟩
  have hfill : (∃ bit, bit < 31 ∧ fills h0.a m.ones_mask m.zeros_mask bit = true) ↔
      ∃ bit, (s.map.at bit).one = some k ∨ (s.map.at bit).zero = some k := by
    constructor
    · rintro ⟨bit, hb, hf⟩
      refine ⟨bit, ?_⟩
      rw [hk_one, hk_zero]
      unfold fills at hf
      simp only [Bool.or_eq_true, Bool.and_eq_true, Bool.not_eq_true'] at hf
      rcases hf with ⟨h1, h2⟩ | ⟨h1, h2⟩
      · exact Or.inl ⟨hb, h1, h2⟩
      · exact Or.inr ⟨hb, h1, h2⟩
    · rintro ⟨bit, h⟩
      rw [hk_one, hk_zero] at h
      refine ⟨bit, ?_⟩
      unfold fills
      simp only [Bool.or_eq_true, Bool.and_eq_true, Bool.not_eq_true']
      rcases h with ⟨hb, h1, h2⟩ | ⟨hb, h1, h2⟩
      · exact ⟨hb, Or.inl ⟨h1, h2⟩⟩
      · exact ⟨hb, Or.inr ⟨h1, h2⟩⟩
  have ho_one : ∀ bit i, i ≠ k → ((s.map.at bit).one = some i ↔ (m.at bit).one = some i) := by
    intro bit i hik
    rw [pone]
    by_cases hc : bit < 31 ∧ h0.a.testBit bit = true ∧ m.ones_mask.testBit bit = false
    · rw [if_pos hc]
      constructor
      · intro h; exact absurd (Option.some.inj h).symm hik
      · intro h
        have := (hs.ones bit).2 ⟨i, h⟩
        rw [hc.2.2] at this; exact Bool.noConfusion this
    · rw [if_neg hc]
  have ho_zero : ∀ bit i, i ≠ k → ((s.map.at bit).zero = some i ↔ (m.at bit).zero = some i) := by
    intro bit i hik
    rw [pzero]
    by_cases hc : bit < 31 ∧ h0.a.testBit bit = false ∧ m.zeros_mask.testBit bit = false
    · rw [if_pos hc]
      constructor
      · intro h; exact absurd (Option.some.inj h).symm hik
      · intro h
        have := (hs.zeros bit).2 ⟨i, h⟩
        rw [hc.2.2] at this; exact Bool.noConfusion this
    · rw [if_neg hc]
  have href : ∀ i, i ≠ k → ((∃ bit, (s.map.at bit).one = some i ∨ (s.map.at bit).zero = some i) ↔
      ∃ bit, (m.at bit).one = some i ∨ (m.at bit).zero = some i) := by
    intro i hik
    constructor
    · rintro ⟨bit, h⟩
      exact ⟨bit, h.imp (ho_one bit i hik).1 (ho_zero bit i hik).1⟩
    · rintro ⟨bit, h⟩
      exact ⟨bit, h.imp (ho_one bit i hik).2 (ho_zero bit i hik).2⟩
  have hinp_ne : ∀ i, i ≠ k → s.inp[i]? = inp[i]? := by
    intro i hik
    by_cases hex : ∃ bit, bit < 31 ∧ fills h0.a m.ones_mask m.zeros_mask bit = true
    · rw [p.inp_filled hex]
      show (calc_at inp k)[i]? = _
      unfold calc_at
      rw [List.getElem?_modify_ne _ _ (fun h => hik h.symm)]
    · rw [p.inp_same hex]
  refine ⟨hk, ?_, ?_, hone, hzero, hones, hzeros, ?_, ?_⟩
  · by_cases hex : ∃ bit, bit < 31 ∧ fills h0.a m.ones_mask m.zeros_mask bit = true
    · rw [p.inp_filled hex]
      show (calc_at inp k).length = _
      unfold calc_at
      rw [List.length_modify]
      exact hs.len
    · rw [p.inp_same hex]
      exact hs.len
  · rw [p.iters_len]; exact hs.iters_len
  · intro i hr
    by_cases hik : i = k
    · subst hik
      rw [p.inp_filled (hfill.2 hr)]
      show (calc_at inp i)[i]? = _
      unfold calc_at
      rw [List.getElem?_modify_eq, hinpk, horig]
      rfl
    · rw [hinp_ne i hik]
      exact hs.cached i ((href i hik).1 hr)
  · intro i hr
    by_cases hik : i = k
    · subst hik
      rw [p.inp_same (fun h => hr (hfill.1 h))]
      exact hs.same i hnoref
    · rw [hinp_ne i hik]
      exact hs.same i (fun h => hr ((href i hik).2 h))

theorem scan_from_spec (orig : input_data) :
    ∀ n it inp m, scanned orig it inp m → it + n = orig.length →
      ∃ k, scanned orig k (bitmap.scan_from n it inp m).1 (bitmap.scan_from n it inp m).2 ∧
        (k = orig.length ∨
          (bitmap.scan_from n it inp m).2.ones_mask &&&
            (bitmap.scan_from n it inp m).2.zeros_mask = 0x7fffffff) := by
  intro n
  induction n with
  | zero =>
    intro it inp m hs hit
    exact ⟨it, hs, Or.inl (by omega)⟩
  | succ n ih =>
    intro it inp m hs hit
    have hstep := scanned_step orig it inp m hs (by omega)
    have hsucc : bitmap.scan_from (n + 1) it inp m =
        if (bitmap.scan_entry inp m it).2.ones_mask &&&
            (bitmap.scan_entry inp m it).2.zeros_mask = 0x7fffffff then
          bitmap.scan_entry inp m it
        else bitmap.scan_from n (it + 1) (bitmap.scan_entry inp m it).1
          (bitmap.scan_entry inp m it).2 := rfl
    by_cases hbrk : (bitmap.scan_entry inp m it).2.ones_mask &&&
        (bitmap.scan_entry inp m it).2.zeros_mask = 0x7fffffff
    · rw [hsucc, if_pos hbrk]
      exact ⟨it + 1, hstep, Or.inr hbrk⟩
    · rw [hsucc, if_neg hbrk]
      exact ih (it + 1) _ _ hstep (by omega)

/-- The constructor stops in a state that reflects a prefix of the input: the
whole input, or a prefix after which all 31 positions are solvable. -/
theorem build_spec (orig : input_data) :
    ∃ k, scanned orig k (bitmap.build orig).1 (bitmap.build orig).2 ∧
      (k = orig.length ∨ (bitmap.build orig).2.solvable_bits = 0x7fffffff) :=
  scan_from_spec orig orig.length 0 orig bitmap.empty (scanned_init orig) (by omega)

theorem exists_first_with (orig : input_data) (bit : Nat) (v : Bool) (k : Nat)
    (hex : ∃ i h, i < k ∧ orig[i]? = some h ∧ h.a.testBit bit = v) :
    ∃ i, i < k ∧ first_with orig bit v i := by
  by_contra hno
  obtain ⟨i, h, hik, hh, hv⟩ := hex
  have := no_first_with orig bit v k (fun j hj hf => hno ⟨j, hj, hf⟩) i h hik hh
  rw [hv] at this
  cases v <;> simp at this

theorem scanned_ones_iff {orig inp : input_data} {k : Nat} {m : bitmap}
    (hs : scanned orig k inp m) (bit : Nat) :
    m.ones_mask.testBit bit = true ↔
      (bit < 31 ∧ ∃ i h, i < k ∧ orig[i]? = some h ∧ h.a.testBit bit = true) := by
  rw [hs.ones]
  constructor
  · rintro ⟨i, hi⟩
    obtain ⟨hb, hik, ⟨h, hh, hv⟩, _⟩ := (hs.one_iff bit i).1 hi
    exact ⟨hb, i, h, hik, hh, hv⟩
  · rintro ⟨hb, hex⟩
    obtain ⟨i, hik, hf⟩ := exists_first_with orig bit true k hex
    exact ⟨i, (hs.one_iff bit i).2 ⟨hb, hik, hf⟩⟩

theorem scanned_zeros_iff {orig inp : input_data} {k : Nat} {m : bitmap}
    (hs : scanned orig k inp m) (bit : Nat) :
    m.zeros_mask.testBit bit = true ↔
      (bit < 31 ∧ ∃ i h, i < k ∧ orig[i]? = some h ∧ h.a.testBit bit = false) := by
  rw [hs.zeros]
  constructor
  · rintro ⟨i, hi⟩
    obtain ⟨hb, hik, ⟨h, hh, hv⟩, _⟩ := (hs.zero_iff bit i).1 hi
    exact ⟨hb, i, h, hik, hh, hv⟩
  · rintro ⟨hb, hex⟩
    obtain ⟨i, hik, hf⟩ := exists_first_with orig bit false k hex
    exact ⟨i, (hs.zero_iff bit i).2 ⟨hb, hik, hf⟩⟩

theorem testBit_mask31 (i : Nat) : (0x7fffffff : Nat).testBit i = decide (i < 31) := by
  have : (0x7fffffff : Nat) = 2 ^ 31 - 1 := by norm_num
  rw [this, Nat.testBit_two_pow_sub_one]

theorem solvable_testBit (m : bitmap) (i : Nat) :
    m.solvable_bits.testBit i = (m.ones_mask.testBit i && m.zeros_mask.testBit i) := by
  unfold bitmap.solvable_bits
  rw [Nat.testBit_and]

/-- A bit is solvable exactly when it is one of the low 31 bits and the input
holds an `a` with that bit set and an `a` with that bit clear. -/
theorem build_solvable_iff (inp : input_data) (i : Nat) :
    (bitmap.build inp).2.solvable_bits.testBit i = true ↔
      (i < 31 ∧ (∃ h ∈ inp, h.a.testBit i = true) ∧ (∃ h ∈ inp, h.a.testBit i = false)) := by
  obtain ⟨k, hs, hk⟩ := build_spec inp
  rw [solvable_testBit, Bool.and_eq_true, scanned_ones_iff hs, scanned_zeros_iff hs]
  constructor
  · rintro ⟨⟨hb, i1, h1, _, hh1, hv1⟩, ⟨_, i0, h0, _, hh0, hv0⟩⟩
    exact ⟨hb, ⟨h1, List.getElem?_mem hh1, hv1⟩, ⟨h0, List.getElem?_mem hh0, hv0⟩⟩
  · rintro ⟨hb, ⟨h1, hm1, hv1⟩, ⟨h0, hm0, hv0⟩⟩
    rcases hk with hk | hk
    · obtain ⟨i1, hi1, he1⟩ := List.getElem_of_mem hm1
      obtain ⟨i0, hi0, he0⟩ := List.getElem_of_mem hm0
      refine ⟨⟨hb, i1, h1, by omega, ?_, hv1⟩, ⟨hb, i0, h0, by omega, ?_, hv0⟩⟩
      · rw [List.getElem?_eq_getElem hi1, he1]
      · rw [List.getElem?_eq_getElem hi0, he0]
    · have hsb : (bitmap.build inp).2.solvable_bits.testBit i = true := by
        rw [hk, testBit_mask31]; simpa using hb
      rw [solvable_testBit, Bool.and_eq_true, scanned_ones_iff hs, scanned_zeros_iff hs] at hsb
      exact hsb

theorem testBit_not32 (x i : Nat) (hx : x < 2 ^ 32) :
    (not32 x).testBit i = (decide (i < 32) && !x.testBit i) := by
  unfold not32
  rw [Nat.mod_eq_of_lt hx]
  have : 2 ^ 32 - 1 - x = 2 ^ 32 - (x + 1) := by omega
  rw [this, Nat.testBit_two_pow_sub_succ hx]

theorem build_solvable_lt (inp : input_data) : (bitmap.build inp).2.solvable_bits < 2 ^ 31 := by
  apply Nat.lt_pow_two_of_testBit
  intro i hi
  cases h : (bitmap.build inp).2.solvable_bits.testBit i
  · rfl
  · have := ((build_solvable_iff inp i).1 h).1
    omega

/-! ## The key2 fast solver -/

/-- Bit `n + 1` of a 32-bit difference `c = x - y` when `x` and `y` differ in
bit `n`: the borrow into position `n + 1` is bit `n` of `y`. -/
theorem sub_bit_succ (x y c n : Nat) (hn : n + 1 < 32)
    (hxy : x % 2 ^ 32 = (c + y) % 2 ^ 32) (hbit : x.testBit n = !y.testBit n) :
    c.testBit (n + 1) =
      Bool.xor (Bool.xor (x.testBit (n + 1)) (y.testBit (n + 1))) (y.testBit n) := by
  have hX : BitVec.ofNat 32 x = BitVec.ofNat 32 c + BitVec.ofNat 32 y := by
    rw [← BitVec.ofNat_add]
    apply BitVec.eq_of_toNat_eq
    rw [BitVec.toNat_ofNat, BitVec.toNat_ofNat, hxy]
  have h1 := @BitVec.getLsbD_add 32 (n + 1) hn (BitVec.ofNat 32 c) (BitVec.ofNat 32 y)
  have h0 := @BitVec.getLsbD_add 32 n (by omega) (BitVec.ofNat 32 c) (BitVec.ofNat 32 y)
  rw [← hX] at h1 h0
  rw [BitVec.carry_succ] at h1
  have hn0 : n < 32 := by omega
  simp only [BitVec.getLsbD_ofNat, hn, hn0, decide_True, Bool.true_and] at h0 h1
  rw [hbit] at h0
  generalize BitVec.carry n (BitVec.ofNat 32 c) (BitVec.ofNat 32 y) false = cr at h0 h1
  rw [h1]
  revert h0
  cases c.testBit n <;> cases y.testBit n <;> cases cr <;> cases c.testBit (n + 1) <;>
    cases y.testBit (n + 1) <;> simp [Bool.atLeastTwo]

theorem shiftRight_and_one (v i : Nat) : (v >>> i) &&& 1 = (v.testBit i).toNat := by
  rw [Nat.and_one_is_mod, Nat.shiftRight_eq_div_pow, Nat.toNat_testBit]

theorem not32_xor_bits (p q r : Bool) :
    not32 (p.toNat ^^^ q.toNat ^^^ r.toNat) &&& 1 = (!(Bool.xor (Bool.xor p q) r)).toNat := by
  cases p <;> cases q <;> cases r <;> rfl

/-- The bit the fast solver computes from a zero-reference and a one-reference
whose difference terms come from one key pair is bit `n` of `key2`. -/
theorem k2_bit (key2 key3 a0 a1 d0 d1 n : Nat) (hn : n < 31)
    (h0 : a0.testBit n = false) (h1 : a1.testBit n = true)
    (hd0 : d0 = add32 (key2 ^^^ a0) key3) (hd1 : d1 = add32 (key2 ^^^ a1) key3) :
    not32 (((a0 >>> (n + 1)) &&& 1) ^^^ ((a1 >>> (n + 1)) &&& 1) ^^^
      ((sub32 d0 d1 >>> (n + 1)) &&& 1)) &&& 1 = (key2.testBit n).toNat := by
  have hxy : (key2 ^^^ a0) % 2 ^ 32 = (sub32 d0 d1 + (key2 ^^^ a1)) % 2 ^ 32 := by
    rw [hd0, hd1, sub32_add32_add32, sub32_add_cancel]
  have hbit : (key2 ^^^ a0).testBit n = !(key2 ^^^ a1).testBit n := by
    rw [Nat.testBit_xor, Nat.testBit_xor, h0, h1]
    cases key2.testBit n <;> rfl
  have hc := sub_bit_succ (key2 ^^^ a0) (key2 ^^^ a1) (sub32 d0 d1) n (by omega) hxy hbit
  rw [shiftRight_and_one, shiftRight_and_one, shiftRight_and_one, not32_xor_bits, hc]
  simp only [Nat.testBit_xor, h1]
  cases key2.testBit n <;> cases key2.testBit (n + 1) <;> cases a0.testBit (n + 1) <;>
    cases a1.testBit (n + 1) <;> rfl

theorem testBit_shl32_bool (b : Bool) (n i : Nat) (hn : n < 32) :
    (shl32 b.toNat n).testBit i = (decide (i = n) && b) := by
  unfold shl32
  rw [Nat.testBit_mod_two_pow, Nat.testBit_shiftLeft, Nat.testBit_bool_to_nat]
  by_cases h : i = n
  · subst h
    simp [hn]
  · by_cases h2 : i ≥ n
    · have : ¬ (i - n = 0) := by omega
      simp [h, this]
    · simp [h, h2]

theorem shl32_zero_left (n : Nat) : shl32 0 n = 0 := by
  unfold shl32
  simp

/-- On observations that all come from one key pair, the fast-solver step for a
solvable bit stores that bit of `key2`, and the step for any other bit stores
nothing. -/
theorem solve_bit_consistent {orig inp : input_data} {k : Nat} {m : bitmap}
    (hs : scanned orig k inp m) (key2 key3 : Nat)
    (hcons : ∀ h ∈ orig, h.calc_diff_term.diff_term = add32 (key2 ^^^ h.a) key3)
    (n : Nat) (hn : n < 31) (acc : Nat) :
    solve_bit inp m m.solvable_bits acc n =
      some (acc ||| shl32 ((m.solvable_bits.testBit n && key2.testBit n).toNat) n) := by
  unfold solve_bit
  by_cases hsb : m.solvable_bits.testBit n = true
  · rw [if_pos ((shiftRight_and_one_ne_zero_iff _ _).2 hsb)]
    have hsb2 := hsb
    rw [solvable_testBit, Bool.and_eq_true] at hsb2
    obtain ⟨o, ho⟩ := (hs.ones n).1 hsb2.1
    obtain ⟨z, hz⟩ := (hs.zeros n).1 hsb2.2
    obtain ⟨_, _, ⟨xo, hxo, hvo⟩, _⟩ := (hs.one_iff n o).1 ho
    obtain ⟨_, _, ⟨xz, hxz, hvz⟩, _⟩ := (hs.zero_iff n z).1 hz
    have hio : inp[o]? = some xo.calc_diff_term := by
      rw [hs.cached o ⟨n, Or.inl ho⟩, hxo]; rfl
    have hiz : inp[z]? = some xz.calc_diff_term := by
      rw [hs.cached z ⟨n, Or.inr hz⟩, hxz]; rfl
    simp only [ho, hz, hio, hiz]
    have hk := k2_bit key2 key3 xz.a xo.a xz.calc_diff_term.diff_term
      xo.calc_diff_term.diff_term n hn hvz hvo
      (hcons xz (List.getElem?_mem hxz)) (hcons xo (List.getElem?_mem hxo))
    rw [calc_diff_term_a, calc_diff_term_a, hk, hsb]
    rfl
  · rw [if_neg (fun h => hsb ((shiftRight_and_one_ne_zero_iff _ _).1 h))]
    have : m.solvable_bits.testBit n = false := by simpa using hsb
    rw [this]
    simp [shl32_zero_left]

theorem fast_solver_upto {orig inp : input_data} {k : Nat} {m : bitmap}
    (hs : scanned orig k inp m) (key2 key3 : Nat)
    (hcons : ∀ h ∈ orig, h.calc_diff_term.diff_term = add32 (key2 ^^^ h.a) key3) :
    ∀ j, j ≤ 31 → ∃ K, (List.range j).foldlM (solve_bit inp m m.solvable_bits) 0 = some K ∧
      ∀ i, K.testBit i = (decide (i < j) && (m.solvable_bits.testBit i && key2.testBit i)) := by
  intro j
  induction j with
  | zero =>
    intro _
    exact ⟨0, rfl, fun i => by simp⟩
  | succ j ih =>
    intro hj
    obtain ⟨K, hK, hbits⟩ := ih (by omega)
    refine ⟨K ||| shl32 ((m.solvable_bits.testBit j && key2.testBit j).toNat) j, ?_, ?_⟩
    · rw [List.range_succ, List.foldlM_append, hK]
      simp only [Option.bind_eq_bind, Option.some_bind, List.foldlM_cons, List.foldlM_nil]
      rw [solve_bit_consistent hs key2 key3 hcons j (by omega) K]
      rfl
    · intro i
      rw [Nat.testBit_or, hbits, testBit_shl32_bool _ _ _ (by omega)]
      by_cases h1 : i = j
      · subst h1; simp
      · by_cases h2 : i < j
        · have : i < j + 1 := by omega
          simp [h1, h2, this]
        · have : ¬ i < j + 1 := by omega
          simp [h1, h2, this]

/-- On observations that all come from one key pair `(key2, key3)`, the fast
solver returns `key2` restricted to the solvable bits. -/
theorem fast_solver_consistent (orig : input_data) (key2 key3 : Nat)
    (hcons : ∀ h ∈ orig, h.calc_diff_term.diff_term = add32 (key2 ^^^ h.a) key3) :
    fast_solver (bitmap.build orig).1 (bitmap.build orig).2
        (bitmap.build orig).2.solvable_bits =
      some (key2 &&& (bitmap.build orig).2.solvable_bits) := by
  obtain ⟨k, hs, _⟩ := build_spec orig
  obtain ⟨K, hK, hbits⟩ := fast_solver_upto hs key2 key3 hcons 31 (le_refl _)
  unfold fast_solver
  rw [hK]
  congr 1
  apply Nat.eq_of_testBit_eq
  intro i
  rw [hbits, Nat.testBit_and]
  by_cases hi : i < 31
  · simp [hi, Bool.and_comm]
  · have : (bitmap.build orig).2.solvable_bits.testBit i = false := by
      cases h : (bitmap.build orig).2.solvable_bits.testBit i
      · rfl
      · exact absurd ((build_solvable_iff orig i).1 h).1 hi
    simp [hi, this]

/-! ## The candidate search -/

theorem raw_of_calc (h : half_round) : raw_of h.calc_diff_term = raw_of h := by
  unfold half_round.calc_diff_term raw_of
  split <;> rfl

theorem memo_ok_calc (h : half_round) (hm : memo_ok h) : memo_ok h.calc_diff_term := by
  unfold half_round.calc_diff_term
  cases hs : h.diff_term_set
  · intro _
    rfl
  · simpa [hs] using hm

theorem key3_from_key2_val (h : half_round) (hm : memo_ok h) (key2 : Nat) :
    (h.key3_from_key2 key2).1 = k3_raw (raw_of h) key2 := by
  unfold half_round.key3_from_key2 half_round.calc_diff_term k3_raw raw_of
  cases hs : h.diff_term_set
  · rfl
  · simp only [Bool.not_true, Bool.false_eq_true, if_false]
    rw [hm hs]

theorem key3_from_key2_state (h : half_round) (key2 : Nat) :
    (h.key3_from_key2 key2).2 = h.calc_diff_term := rfl

theorem check_rest_spec (key2 key3 : Nat) :
    ∀ t : input_data, (∀ h ∈ t, memo_ok h) →
      (check_rest key2 key3 t).1 = (t.map raw_of).all (fun x => decide (k3_raw x key2 = key3)) ∧
      (check_rest key2 key3 t).2.map raw_of = t.map raw_of ∧
      ∀ h ∈ (check_rest key2 key3 t).2, memo_ok h := by
  intro t
  induction t with
  | nil =>
    intro _
    exact ⟨rfl, rfl, fun h hh => by cases hh⟩
  | cons h t ih =>
    intro hm
    have hmh : memo_ok h := hm h (List.mem_cons_self _ _)
    have hmt : ∀ x ∈ t, memo_ok x := fun x hx => hm x (List.mem_cons_of_mem _ hx)
    obtain ⟨ih1, ih2, ih3⟩ := ih hmt
    have hv := key3_from_key2_val h hmh key2
    unfold check_rest
    by_cases hne : (h.key3_from_key2 key2).1 ≠ key3
    · rw [if_pos hne]
      refine ⟨?_, ?_, ?_⟩
      · rw [hv] at hne
        simp [hne]
      · simp [key3_from_key2_state, raw_of_calc]
      · intro x hx
        rcases List.mem_cons.1 hx with rfl | hx
        · exact memo_ok_calc h hmh
        · exact hmt x hx
    · rw [if_neg hne]
      have heq : k3_raw (raw_of h) key2 = key3 := by
        rw [← hv]; exact not_not.1 hne
      refine ⟨?_, ?_, ?_⟩
      · show (check_rest key2 key3 t).1 = _
        rw [ih1]
        simp [heq]
      · show ((h.key3_from_key2 key2).2 :: (check_rest key2 key3 t).2).map raw_of = _
        rw [List.map_cons, ih2, key3_from_key2_state, raw_of_calc]
        rfl
      · intro x hx
        rcases List.mem_cons.1 hx with rfl | hx
        · exact memo_ok_calc h hmh
        · exact ih3 x hx

theorem try_key2_spec (key2 : Nat) (inp : input_data) (hne : inp ≠ [])
    (hm : ∀ h ∈ inp, memo_ok h) :
    ∃ r t inp1, inp.map raw_of = r :: t ∧
      try_key2 inp key2 = some (accepts (inp.map raw_of) key2, k3_raw r key2, inp1) ∧
      inp1.map raw_of = inp.map raw_of ∧ ∀ h ∈ inp1, memo_ok h := by
  cases inp with
  | nil => exact absurd rfl hne
  | cons h t =>
    have hmh : memo_ok h := hm h (List.mem_cons_self _ _)
    have hmt : ∀ x ∈ t, memo_ok x := fun x hx => hm x (List.mem_cons_of_mem _ hx)
    have hv := key3_from_key2_val h hmh key2
    obtain ⟨c1, c2, c3⟩ := check_rest_spec key2 (h.key3_from_key2 key2).1 t hmt
    have hdef : try_key2 (h :: t) key2 =
        some ((check_rest key2 (h.key3_from_key2 key2).1 t).1, (h.key3_from_key2 key2).1,
          (h.key3_from_key2 key2).2 :: (check_rest key2 (h.key3_from_key2 key2).1 t).2) := rfl
    refine ⟨raw_of h, t.map raw_of,
      (h.key3_from_key2 key2).2 :: (check_rest key2 (h.key3_from_key2 key2).1 t).2,
      rfl, ?_, ?_, ?_⟩
    · rw [hdef, c1, hv]
      rfl
    · rw [List.map_cons, c2, key3_from_key2_state, raw_of_calc]
      rfl
    · intro x hx
      rcases List.mem_cons.1 hx with rfl | hx
      · exact memo_ok_calc h hmh
      · exact c3 x hx

theorem search_loop_zero (um kb : Nat) (inp : input_data) :
    search_loop um kb 0 inp = some (search_result.NotFound, inp) := by
  rw [search_loop]
  rfl

theorem search_loop_found (um kb : Nat) {s : Nat} (h : s ≠ 0) (inp inp1 : input_data)
    (key3 : Nat) (ht : try_key2 inp (s ||| kb) = some (true, key3, inp1)) :
    search_loop um kb s inp = some (search_result.Found (s ||| kb) key3, inp1) := by
  rw [search_loop, dif_neg h, ht]

theorem search_loop_next (um kb : Nat) {s : Nat} (h : s ≠ 0) (inp inp1 : input_data)
    (key3 : Nat) (ht : try_key2 inp (s ||| kb) = some (false, key3, inp1)) :
    search_loop um kb s inp = search_loop um kb (sub32 s 1 &&& um) inp1 := by
  rw [search_loop, dif_neg h, ht]

theorem loop_result_nil (raw : List (Nat × Nat × Nat × Nat)) (kb : Nat) :
    loop_result raw kb [] = search_result.NotFound := by
  unfold loop_result
  cases raw <;> rfl

theorem loop_result_cons_true (r : Nat × Nat × Nat × Nat) (t : List (Nat × Nat × Nat × Nat))
    (kb s : Nat) (l : List Nat) (h : accepts (r :: t) (s ||| kb) = true) :
    loop_result (r :: t) kb (s :: l) =
      search_result.Found (s ||| kb) (k3_raw r (s ||| kb)) := by
  unfold loop_result
  rw [List.find?_cons, h]

theorem loop_result_cons_false (raw : List (Nat × Nat × Nat × Nat))
    (kb s : Nat) (l : List Nat) (h : accepts raw (s ||| kb) = false) :
    loop_result raw kb (s :: l) = loop_result raw kb l := by
  unfold loop_result
  rw [List.find?_cons, h]

/-- Result of the submask loop entered with `submask = s`, for observations in
states reachable from their constructor. -/
theorem search_loop_spec (um kb : Nat) (s : Nat) :
    ∀ inp : input_data, inp ≠ [] → (∀ h ∈ inp, memo_ok h) →
      ∃ inp1, search_loop um kb s inp =
          some (loop_result (inp.map raw_of) kb (submask_loop um s), inp1) ∧
        inp1.map raw_of = inp.map raw_of ∧ ∀ h ∈ inp1, memo_ok h := by
  induction s using Nat.strong_induction_on with
  | _ s ih =>
    intro inp hne hm
    by_cases h0 : s = 0
    · subst h0
      refine ⟨inp, ?_, rfl, hm⟩
      rw [search_loop_zero, submask_loop_zero, loop_result_nil]
    · obtain ⟨r, t, inp1, hr, htry, hraw1, hm1⟩ := try_key2_spec (s ||| kb) inp hne hm
      have hlt : sub32 s 1 &&& um < s := by
        have h1 : sub32 s 1 &&& um ≤ sub32 s 1 := Nat.and_le_left
        have h2 : sub32 s 1 < s := by
          unfold sub32
          omega
        omega
      have hne1 : inp1 ≠ [] := by
        intro h
        rw [h, hr] at hraw1
        cases hraw1
      rw [submask_loop_pos um h0]
      cases hacc : accepts (inp.map raw_of) (s ||| kb)
      · rw [hacc] at htry
        obtain ⟨inp2, hloop, hraw2, hm2⟩ := ih _ hlt inp1 hne1 hm1
        refine ⟨inp2, ?_, hraw2.trans hraw1, hm2⟩
        rw [search_loop_next um kb h0 inp inp1 _ htry, hloop, hraw1,
          loop_result_cons_false _ _ _ _ hacc]
      · rw [hacc] at htry
        refine ⟨inp1, ?_, hraw1, hm1⟩
        rw [search_loop_found um kb h0 inp inp1 _ htry]
        rw [hr] at hacc ⊢
        rw [loop_result_cons_true r t kb s _ hacc]

theorem loop_result_append (raw : List (Nat × Nat × Nat × Nat)) (kb : Nat) (l1 l2 : List Nat) :
    loop_result raw kb (l1 ++ l2) =
      match loop_result raw kb l1 with
      | search_result.Found k2 k3 => search_result.Found k2 k3
      | search_result.NotFound => loop_result raw kb l2 := by
  induction l1 with
  | nil => rw [loop_result_nil]; rfl
  | cons s l ih =>
    cases raw with
    | nil =>
      cases l2 <;> rfl
    | cons r t =>
      rw [List.cons_append]
      cases hacc : accepts (r :: t) (s ||| kb)
      · rw [loop_result_cons_false _ _ _ _ hacc, loop_result_cons_false _ _ _ _ hacc, ih]
      · rw [loop_result_cons_true _ _ _ _ _ hacc, loop_result_cons_true _ _ _ _ _ hacc]

theorem candidate_search_found (um kb : Nat) (inp inp1 : input_data) (k2 k3 : Nat)
    (h : search_loop um kb um inp = some (search_result.Found k2 k3, inp1)) :
    candidate_search um kb inp = some (search_result.Found k2 k3) := by
  unfold candidate_search
  rw [h]

theorem candidate_search_zero (um kb : Nat) (inp inp1 inp2 : input_data) (v : Bool) (k3 : Nat)
    (h : search_loop um kb um inp = some (search_result.NotFound, inp1))
    (ht : try_key2 inp1 kb = some (v, k3, inp2)) :
    candidate_search um kb inp =
      some (if v = true then search_result.Found kb k3 else search_result.NotFound) := by
  unfold candidate_search
  rw [h]
  simp only []
  rw [ht]
  cases v <;> rfl

/-- The candidate search on a non-empty vector of observations in states
reachable from their constructor returns the first accepted candidate of the
submask sequence. -/
theorem candidate_search_spec (um kb : Nat) (inp : input_data) (hne : inp ≠ [])
    (hm : ∀ h ∈ inp, memo_ok h) :
    candidate_search um kb inp = some (search_spec (inp.map raw_of) um kb) := by
  obtain ⟨inp1, hloop, hraw1, hm1⟩ := search_loop_spec um kb um inp hne hm
  unfold search_spec submask_seq
  rw [loop_result_append]
  cases hres : loop_result (inp.map raw_of) kb (submask_loop um um) with
  | Found k2 k3 =>
    rw [hres] at hloop
    exact candidate_search_found um kb inp inp1 k2 k3 hloop
  | NotFound =>
    rw [hres] at hloop
    have hne1 : inp1 ≠ [] := by
      intro h
      rw [h] at hraw1
      cases inp with
      | nil => exact hne rfl
      | cons x xs => cases hraw1
    obtain ⟨r, t, inp2, hr, htry, _, _⟩ := try_key2_spec kb inp1 hne1 hm1
    rw [candidate_search_zero um kb inp inp1 inp2 _ _ hloop htry]
    rw [hraw1] at htry hr
    simp only []
    rw [hr]
    cases hacc : accepts (r :: t) kb
    · rw [hraw1, hr, hacc]
      rw [loop_result_cons_false _ _ _ _ (by rw [Nat.zero_or]; exact hacc), loop_result_nil]
      rfl
    · rw [hraw1, hr, hacc]
      rw [loop_result_cons_true _ _ _ _ _ (by rw [Nat.zero_or]; exact hacc), Nat.zero_or]
      rfl

/-! ## The pipeline of `main` -/

theorem load_inputs_raw (raw : List (Nat × Nat × Nat × Nat)) :
    (load_inputs raw).map raw_of = raw := by
  unfold load_inputs
  rw [List.map_map]
  have : (raw_of ∘ fun r : Nat × Nat × Nat × Nat => half_round.new r.1 r.2.1 r.2.2.1 r.2.2.2) = id := by
    funext r
    rfl
  rw [this, List.map_id]

theorem load_inputs_memo (raw : List (Nat × Nat × Nat × Nat)) :
    ∀ h ∈ load_inputs raw, memo_ok h := by
  intro h hh
  unfold load_inputs at hh
  obtain ⟨r, _, rfl⟩ := List.mem_map.1 hh
  intro hset
  exact Bool.noConfusion hset

theorem load_inputs_ne (raw : List (Nat × Nat × Nat × Nat)) (hne : raw ≠ []) :
    load_inputs raw ≠ [] := by
  cases raw with
  | nil => exact absurd rfl hne
  | cons r t => exact List.cons_ne_nil _ _

/-- The constructor leaves the traced words of every observation unchanged and
every observation in a state reachable from its constructor. -/
theorem build_tracks (orig : input_data) (hm : ∀ h ∈ orig, memo_ok h) :
    (bitmap.build orig).1.map raw_of = orig.map raw_of ∧
      ∀ h ∈ (bitmap.build orig).1, memo_ok h := by
  obtain ⟨k, hs, _⟩ := build_spec orig
  constructor
  · apply List.ext_getElem?
    intro i
    rw [List.getElem?_map, List.getElem?_map]
    by_cases href : ∃ bit, ((bitmap.build orig).2.at bit).one = some i ∨
        ((bitmap.build orig).2.at bit).zero = some i
    · rw [hs.cached i href]
      cases orig[i]? with
      | none => rfl
      | some x => simp [raw_of_calc]
    · rw [hs.same i href]
  · intro h hh
    obtain ⟨i, hi⟩ := List.mem_iff_getElem?.1 hh
    by_cases href : ∃ bit, ((bitmap.build orig).2.at bit).one = some i ∨
        ((bitmap.build orig).2.at bit).zero = some i
    · rw [hs.cached i href] at hi
      cases hx : orig[i]? with
      | none => rw [hx] at hi; cases hi
      | some x =>
        rw [hx] at hi
        have : x.calc_diff_term = h := Option.some.inj hi
        rw [← this]
        exact memo_ok_calc x (hm x (List.getElem?_mem hx))
    · rw [hs.same i href] at hi
      exact hm h (List.getElem?_mem hi)

theorem calc_diff_term_value (h : half_round) (hm : memo_ok h) :
    h.calc_diff_term.diff_term = diff_of h.a h.b h.sum h.b_prime := by
  unfold half_round.calc_diff_term
  cases hs : h.diff_term_set
  · rfl
  · simpa [hs] using hm hs

theorem forward_of_verify (h : half_round) (key2 key3 : Nat)
    (hv : h.verify_keys key2 key3 = true) :
    forward h.a h.b h.sum key2 key3 = h.b_prime := by
  rw [verify_keys_eq] at hv
  exact of_decide_eq_true hv

theorem diff_term_of_verify (h : half_round) (hm : memo_ok h) (key2 key3 : Nat)
    (hv : h.verify_keys key2 key3 = true) :
    h.calc_diff_term.diff_term = add32 (key2 ^^^ h.a) key3 := by
  rw [calc_diff_term_value h hm, ← forward_of_verify h key2 key3 hv, diff_of_forward]

theorem k3_raw_of_verify (h : half_round) (key2 key3 : Nat)
    (hv : h.verify_keys key2 key3 = true) :
    k3_raw (raw_of h) key2 = key3 % 2 ^ 32 := by
  unfold k3_raw raw_of
  simp only []
  rw [← forward_of_verify h key2 key3 hv, diff_of_forward, sub32_add32_left_cancel]

/-- On observations that all come from one key pair, `main` returns the first
accepted candidate among the submasks of the unsolved bits joined with the
solved bits of `key2`. -/
theorem main_consistent (raw : List (Nat × Nat × Nat × Nat)) (hne : raw ≠ [])
    (key2 key3 : Nat) (hsat : ∀ h ∈ load_inputs raw, h.verify_keys key2 key3 = true) :
    main raw = some (search_spec raw
      (not32 (bitmap.build (load_inputs raw)).2.solvable_bits)
      (key2 &&& (bitmap.build (load_inputs raw)).2.solvable_bits)) := by
  have hm := load_inputs_memo raw
  have hcons : ∀ h ∈ load_inputs raw,
      h.calc_diff_term.diff_term = add32 (key2 ^^^ h.a) key3 :=
    fun h hh => diff_term_of_verify h (hm h hh) key2 key3 (hsat h hh)
  obtain ⟨ht1, ht2⟩ := build_tracks (load_inputs raw) hm
  have hne1 : (bitmap.build (load_inputs raw)).1 ≠ [] := by
    intro h
    rw [h, load_inputs_raw] at ht1
    exact hne ht1.symm
  unfold main
  simp only []
  rw [fast_solver_consistent (load_inputs raw) key2 key3 hcons]
  simp only []
  rw [candidate_search_spec _ _ _ hne1 ht2, ht1, load_inputs_raw, and_mask_idem]

theorem accepts_cons_iff (r : Nat × Nat × Nat × Nat) (t : List (Nat × Nat × Nat × Nat))
    (k : Nat) : accepts (r :: t) k = true ↔ ∀ x ∈ t, k3_raw x k = k3_raw r k := by
  unfold accepts
  simp only [List.all_eq_true, decide_eq_true_eq]

theorem accepts_iff_all_eq (raw : List (Nat × Nat × Nat × Nat)) (k : Nat) :
    accepts raw k = true ↔ ∀ x ∈ raw, ∀ y ∈ raw, k3_raw x k = k3_raw y k := by
  cases raw with
  | nil =>
    constructor
    · intro _ x hx
      cases hx
    · intro _
      rfl
  | cons r t =>
    rw [accepts_cons_iff]
    constructor
    · intro h x hx y hy
      have hxr : k3_raw x k = k3_raw r k := by
        rcases List.mem_cons.1 hx with rfl | hx
        · rfl
        · exact h x hx
      have hyr : k3_raw y k = k3_raw r k := by
        rcases List.mem_cons.1 hy with rfl | hy
        · rfl
        · exact h y hy
      rw [hxr, hyr]
    · intro h x hx
      exact h x (List.mem_cons_of_mem _ hx) r (List.mem_cons_self _ _)

theorem accepts_perm {raw raw2 : List (Nat × Nat × Nat × Nat)} (hp : raw.Perm raw2) (k : Nat) :
    accepts raw k = accepts raw2 k := by
  rw [Bool.eq_iff_iff, accepts_iff_all_eq, accepts_iff_all_eq]
  constructor
  · intro h x hx y hy
    exact h x (hp.mem_iff.2 hx) y (hp.mem_iff.2 hy)
  · intro h x hx y hy
    exact h x (hp.mem_iff.1 hx) y (hp.mem_iff.1 hy)

/-- The outcome of a trial sequence is either `NotFound`, when no submask of the
sequence is accepted, or the first accepted candidate with the common `key3`. -/
theorem loop_result_cases (r : Nat × Nat × Nat × Nat) (t : List (Nat × Nat × Nat × Nat))
    (kb : Nat) (l : List Nat) :
    (loop_result (r :: t) kb l = search_result.NotFound ∧
        ∀ s ∈ l, accepts (r :: t) (s ||| kb) = false) ∨
      ∃ s, s ∈ l ∧ accepts (r :: t) (s ||| kb) = true ∧
        l.find? (fun s => accepts (r :: t) (s ||| kb)) = some s ∧
        loop_result (r :: t) kb l = search_result.Found (s ||| kb) (k3_raw r (s ||| kb)) := by
  induction l with
  | nil =>
    left
    exact ⟨loop_result_nil _ _, fun s hs => by cases hs⟩
  | cons s l ih =>
    cases hacc : accepts (r :: t) (s ||| kb)
    · rw [loop_result_cons_false _ _ _ _ hacc, List.find?_cons, hacc]
      rcases ih with ⟨h1, h2⟩ | ⟨s2, h1, h2, h3, h4⟩
      · left
        refine ⟨h1, ?_⟩
        intro x hx
        rcases List.mem_cons.1 hx with rfl | hx
        · exact hacc
        · exact h2 x hx
      · right
        exact ⟨s2, List.mem_cons_of_mem _ h1, h2, h3, h4⟩
    · right
      refine ⟨s, List.mem_cons_self _ _, hacc, ?_, loop_result_cons_true _ _ _ _ _ hacc⟩
      rw [List.find?_cons, hacc]

theorem loop_result_perm {raw raw2 : List (Nat × Nat × Nat × Nat)} (hp : raw.Perm raw2)
    (kb : Nat) (l : List Nat) : loop_result raw kb l = loop_result raw2 kb l := by
  cases raw with
  | nil =>
    have : raw2 = [] := List.Perm.eq_nil (List.Perm.symm hp)
    rw [this]
  | cons r t =>
    cases raw2 with
    | nil => exact absurd (List.Perm.eq_nil hp) (List.cons_ne_nil _ _)
    | cons r2 t2 =>
      have hfun : (fun s => accepts (r :: t) (s ||| kb)) =
          fun s => accepts (r2 :: t2) (s ||| kb) := by
        funext s
        exact accepts_perm hp _
      rcases loop_result_cases r t kb l with ⟨h1, h2⟩ | ⟨s, h1, h2, h3, h4⟩
      · rcases loop_result_cases r2 t2 kb l with ⟨g1, _⟩ | ⟨s2, g1, g2, _, _⟩
        · rw [h1, g1]
        · rw [← accepts_perm hp, h2 s2 g1] at g2
          cases g2
      · rcases loop_result_cases r2 t2 kb l with ⟨_, g2⟩ | ⟨s2, _, _, g3, g4⟩
        · rw [accepts_perm hp, g2 s h1] at h2
          cases h2
        · rw [hfun, g3] at h3
          have hs : s2 = s := Option.some.inj h3
          subst hs
          rw [h4, g4]
          have := (accepts_iff_all_eq (r :: t) (s2 ||| kb)).1 h2 r (List.mem_cons_self _ _) r2
            (hp.mem_iff.2 (List.mem_cons_self _ _))
          rw [this]

theorem not32_lt (x : Nat) : not32 x < 2 ^ 32 := by
  unfold not32
  omega

theorem split_known_unknown (key2 sb : Nat) (hk : key2 < 2 ^ 32) (hs : sb < 2 ^ 32) :
    (key2 &&& not32 sb) ||| (key2 &&& sb) = key2 := by
  apply Nat.eq_of_testBit_eq
  intro i
  rw [Nat.testBit_or, Nat.testBit_and, Nat.testBit_and, testBit_not32 _ _ hs]
  by_cases hi : i < 32
  · cases key2.testBit i <;> cases sb.testBit i <;> simp [hi]
  · have h1 : 2 ^ 32 ≤ 2 ^ i := Nat.pow_le_pow_right (by decide) (by omega)
    have : key2.testBit i = false := Nat.testBit_lt_two_pow (by omega)
    simp [this]

theorem accepts_of_verify (raw : List (Nat × Nat × Nat × Nat)) (key2 key3 : Nat)
    (hsat : ∀ h ∈ load_inputs raw, h.verify_keys key2 key3 = true) :
    accepts raw key2 = true ∧ ∀ r ∈ raw, k3_raw r key2 = key3 % 2 ^ 32 := by
  have hall : ∀ r ∈ raw, k3_raw r key2 = key3 % 2 ^ 32 := by
    intro r hr
    have hmem : half_round.new r.1 r.2.1 r.2.2.1 r.2.2.2 ∈ load_inputs raw :=
      List.mem_map.2 ⟨r, hr, rfl⟩
    have h := k3_raw_of_verify (half_round.new r.1 r.2.1 r.2.2.1 r.2.2.2) key2 key3
      (hsat _ hmem)
    have hr : raw_of (half_round.new r.1 r.2.1 r.2.2.1 r.2.2.2) = r := rfl
    rw [hr] at h
    exact h
  refine ⟨?_, hall⟩
  rw [accepts_iff_all_eq]
  intro x hx y hy
  rw [hall x hx, hall y hy]

/-- Completeness of the pipeline on consistent observations. -/
theorem main_found_of_verify (raw : List (Nat × Nat × Nat × Nat)) (hne : raw ≠ [])
    (key2 key3 : Nat) (hk2 : key2 < 2 ^ 32)
    (hsat : ∀ h ∈ load_inputs raw, h.verify_keys key2 key3 = true) :
    ∃ k2 k3, main raw = some (search_result.Found k2 k3) := by
  rw [main_consistent raw hne key2 key3 hsat]
  cases raw with
  | nil => exact absurd rfl hne
  | cons r t =>
    have hsb : (bitmap.build (load_inputs (r :: t))).2.solvable_bits < 2 ^ 32 := by
      have := build_solvable_lt (load_inputs (r :: t))
      have h2 : (2 : Nat) ^ 31 < 2 ^ 32 := by norm_num
      omega
    generalize (bitmap.build (load_inputs (r :: t))).2.solvable_bits = sb at hsb
    unfold search_spec
    rcases loop_result_cases r t (key2 &&& sb) (submask_seq (not32 sb)) with
      ⟨_, h2⟩ | ⟨s, _, _, _, h4⟩
    · have hmem : key2 &&& not32 sb ∈ submask_seq (not32 sb) :=
        (submask_seq_mem _ (not32_lt sb) _).2 (and_mask_idem _ _)
      have := h2 _ hmem
      rw [split_known_unknown key2 sb hk2 hsb, (accepts_of_verify _ key2 key3 hsat).1] at this
      cases this
    · exact ⟨_, _, congrArg some h4⟩

/-! ## The most significant bit of `key2` -/

theorem xor_msb (y : Nat) (hy : y < 2 ^ 32) :
    y ^^^ 2 ^ 31 = if y < 2 ^ 31 then y + 2 ^ 31 else y - 2 ^ 31 := by
  by_cases h : y < 2 ^ 31
  · rw [if_pos h, Nat.add_comm]
    apply Nat.eq_of_testBit_eq
    intro i
    rw [Nat.testBit_xor, Nat.testBit_two_pow, testBit_two_pow_add_of_lt h]
    by_cases hi : i = 31
    · subst hi
      rw [Nat.testBit_lt_two_pow h]
      rfl
    · have : ¬ 31 = i := fun e => hi e.symm
      simp [hi, this]
  · rw [if_neg h]
    have hu : y - 2 ^ 31 < 2 ^ 31 := by omega
    have hyu : y = 2 ^ 31 + (y - 2 ^ 31) := by omega
    generalize y - 2 ^ 31 = u at hu hyu
    subst hyu
    apply Nat.eq_of_testBit_eq
    intro i
    rw [Nat.testBit_xor, Nat.testBit_two_pow, testBit_two_pow_add_of_lt hu]
    by_cases hi : i = 31
    · subst hi
      rw [Nat.testBit_lt_two_pow hu]
      rfl
    · have : ¬ 31 = i := fun e => hi e.symm
      simp [hi, this]

/-- Flipping bit 31 of `key2` adds `0x80000000` to the `key3` an observation
derives. -/
theorem k3_raw_flip_msb (r : Nat × Nat × Nat × Nat) (key2 : Nat) (hr : r.1 < 2 ^ 32)
    (hk : key2 < 2 ^ 32) :
    k3_raw r (key2 ^^^ 2 ^ 31) = add32 (k3_raw r key2) (2 ^ 31) := by
  unfold k3_raw
  have hy : key2 ^^^ r.1 < 2 ^ 32 := Nat.xor_lt_two_pow hk hr
  have hx : (key2 ^^^ 2 ^ 31) ^^^ r.1 = (key2 ^^^ r.1) ^^^ 2 ^ 31 := by
    rw [Nat.xor_assoc, Nat.xor_assoc, Nat.xor_comm (2 ^ 31)]
  rw [hx, xor_msb _ hy]
  generalize key2 ^^^ r.1 = y at hy
  generalize diff_of r.1 r.2.1 r.2.2.1 r.2.2.2 = d
  unfold sub32 add32
  split <;> omega

theorem k3_raw_lt (r : Nat × Nat × Nat × Nat) (key2 : Nat) : k3_raw r key2 < 2 ^ 32 :=
  sub32_lt _ _

theorem accepts_flip_msb (raw : List (Nat × Nat × Nat × Nat)) (key2 : Nat)
    (hraw : ∀ r ∈ raw, r.1 < 2 ^ 32) (hk : key2 < 2 ^ 32) :
    accepts raw (key2 ^^^ 2 ^ 31) = accepts raw key2 := by
  rw [Bool.eq_iff_iff, accepts_iff_all_eq, accepts_iff_all_eq]
  constructor
  · intro h x hx y hy
    have := h x hx y hy
    rw [k3_raw_flip_msb x key2 (hraw x hx) hk, k3_raw_flip_msb y key2 (hraw y hy) hk] at this
    have h1 := k3_raw_lt x key2
    have h2 := k3_raw_lt y key2
    unfold add32 at this
    omega
  · intro h x hx y hy
    rw [k3_raw_flip_msb x key2 (hraw x hx) hk, k3_raw_flip_msb y key2 (hraw y hy) hk,
      h x hx y hy]

theorem or_msb (key2 : Nat) :
    key2 ||| 2 ^ 31 = if key2.testBit 31 = true then key2 else key2 ^^^ 2 ^ 31 := by
  apply Nat.eq_of_testBit_eq
  intro i
  by_cases hb : key2.testBit 31 = true
  · rw [if_pos hb, Nat.testBit_or, Nat.testBit_two_pow]
    by_cases hi : 31 = i
    · subst hi; simp [hb]
    · simp [hi]
  · rw [if_neg hb, Nat.testBit_or, Nat.testBit_xor, Nat.testBit_two_pow]
    have hb2 : key2.testBit 31 = false := by simpa using hb
    by_cases hi : 31 = i
    · subst hi; simp [hb2]
    · simp [hi]

theorem msb_or_low (key2 : Nat) (hk : key2 < 2 ^ 32) :
    0x80000000 ||| (key2 &&& 0x7fffffff) = key2 ||| 2 ^ 31 := by
  have h1 : (0x80000000 : Nat) = 2 ^ 31 := by norm_num
  apply Nat.eq_of_testBit_eq
  intro i
  rw [h1, Nat.testBit_or, Nat.testBit_or, Nat.testBit_and, testBit_mask31, Nat.testBit_two_pow]
  by_cases hi : i < 31
  · have : ¬ 31 = i := by omega
    simp [hi, this]
  · by_cases hi2 : 31 = i
    · subst hi2; simp
    · have h2 : 2 ^ 32 ≤ 2 ^ i := Nat.pow_le_pow_right (by decide) (by omega)
      have : key2.testBit i = false := Nat.testBit_lt_two_pow (by omega)
      simp [hi, hi2, this]

theorem submask_seq_msb : submask_seq 0x80000000 = [0x80000000, 0] := by
  unfold submask_seq
  rw [submask_loop_pos _ (by decide)]
  have : sub32 0x80000000 1 &&& 0x80000000 = 0 := by decide
  rw [this, submask_loop_zero]
  rfl

theorem build_solvable_of_cover (inp : input_data)
    (hcov : ∀ i, i < 31 → (∃ h ∈ inp, h.a.testBit i = true) ∧ (∃ h ∈ inp, h.a.testBit i = false)) :
    (bitmap.build inp).2.solvable_bits = 0x7fffffff := by
  apply Nat.eq_of_testBit_eq
  intro i
  rw [testBit_mask31, Bool.eq_iff_iff, build_solvable_iff, decide_eq_true_iff]
  constructor
  · exact fun h => h.1
  · exact fun h => ⟨h, hcov i h⟩

/-- When all 31 low bits are solvable, `main` accepts the first candidate: the
solved low bits of `key2` with bit 31 set, and the `key3` that goes with it. -/
theorem main_covering (raw : List (Nat × Nat × Nat × Nat)) (hne : raw ≠ [])
    (key2 key3 : Nat) (hk2 : key2 < 2 ^ 32) (hk3 : key3 < 2 ^ 32)
    (hraw : ∀ r ∈ raw, r.1 < 2 ^ 32)
    (hsat : ∀ h ∈ load_inputs raw, h.verify_keys key2 key3 = true)
    (hsb : (bitmap.build (load_inputs raw)).2.solvable_bits = 0x7fffffff) :
    main raw = some (search_result.Found (key2 ||| 0x80000000)
      (if key2.testBit 31 = true then key3 else add32 key3 0x80000000)) := by
  rw [main_consistent raw hne key2 key3 hsat, hsb]
  have hn : not32 0x7fffffff = 0x80000000 := by decide
  have h31 : (0x80000000 : Nat) = 2 ^ 31 := by norm_num
  obtain ⟨hacc, hk3s⟩ := accepts_of_verify raw key2 key3 hsat
  cases raw with
  | nil => exact absurd rfl hne
  | cons r t =>
    unfold search_spec
    rw [hn, submask_seq_msb]
    have hacc2 : accepts (r :: t) (key2 ||| 2 ^ 31) = true := by
      rw [or_msb]
      split
      · exact hacc
      · rw [accepts_flip_msb _ _ hraw hk2]; exact hacc
    have := loop_result_cons_true r t (key2 &&& 0x7fffffff) 0x80000000 [0]
      (by rw [msb_or_low key2 hk2]; exact hacc2)
    rw [msb_or_low key2 hk2] at this
    rw [this, h31]
    congr 2
    have hr := hk3s r (List.mem_cons_self _ _)
    rw [Nat.mod_eq_of_lt hk3] at hr
    rw [or_msb]
    split
    · exact hr
    · rw [k3_raw_flip_msb r key2 (hraw r (List.mem_cons_self _ _)) hk2, hr]

/-! ## The claims -/

/-- C1. Search soundness. On a non-empty vector of observations, each in a state
reachable from its constructor and with a 32-bit `b_prime`, the candidate search
(submask loop and explicit zero-submask trial, for any unknown mask and known
bits) returns a result; when it reports `Found key2 key3`, `verify_keys key2 key3`
is true for every observation; and when no key pair satisfies all observations it
returns `NotFound`. -/
theorem candidate_search_sound (inp : input_data) (unknown_mask known_bits : Nat)
    (hne : inp ≠ []) (hm : ∀ h ∈ inp, memo_ok h) (hbp : ∀ h ∈ inp, h.b_prime < 2 ^ 32) :
    (∃ r, candidate_search unknown_mask known_bits inp = some r) ∧
      (∀ key2 key3,
        candidate_search unknown_mask known_bits inp = some (search_result.Found key2 key3) →
          ∀ h ∈ inp, h.verify_keys key2 key3 = true) ∧
      ((¬ ∃ key2 key3, ∀ h ∈ inp, h.verify_keys key2 key3 = true) →
        candidate_search unknown_mask known_bits inp = some search_result.NotFound) := by
  have hspec := candidate_search_spec unknown_mask known_bits inp hne hm
  have hsound : ∀ key2 key3,
      candidate_search unknown_mask known_bits inp = some (search_result.Found key2 key3) →
        ∀ h ∈ inp, h.verify_keys key2 key3 = true := by
    intro key2 key3 hfound h hh
    rw [hspec] at hfound
    have hres := Option.some.inj hfound
    unfold search_spec at hres
    cases hraw : inp.map raw_of with
    | nil => exact absurd (List.map_eq_nil_iff.1 hraw) hne
    | cons r t =>
      rw [hraw] at hres
      rcases loop_result_cases r t known_bits (submask_seq unknown_mask) with
        ⟨h1, _⟩ | ⟨s, _, hacc, _, h4⟩
      · rw [h1] at hres
        cases hres
      · rw [h4] at hres
        injection hres with e2 e3
        rw [e2] at hacc e3
        have hmem : raw_of h ∈ r :: t := by
          rw [← hraw]
          exact List.mem_map.2 ⟨h, hh, rfl⟩
        have hk := (accepts_iff_all_eq (r :: t) key2).1 hacc (raw_of h) hmem r
          (List.mem_cons_self _ _)
        rw [e3] at hk
        have hk3 : key3 < 2 ^ 32 := by
          rw [← e3]
          exact k3_raw_lt r key2
        rw [verify_keys_eq, decide_eq_true_iff]
        exact (forward_eq_iff h.a h.b h.sum h.b_prime key2 key3 (hbp h hh) hk3).2 hk
  refine ⟨⟨_, hspec⟩, hsound, ?_⟩
  intro hno
  cases hr : search_spec (inp.map raw_of) unknown_mask known_bits with
  | NotFound => rw [hspec, hr]
  | Found key2 key3 =>
    rw [hr] at hspec
    exact absurd ⟨key2, key3, hsound key2 key3 hspec⟩ hno

/-- Witness for C1 on the reference dataset of `main.cpp`. -/
theorem candidate_search_sound_witness :
    (∃ r, candidate_search 0x80000000 0x0883aad3 (load_inputs raw_inputs) = some r) ∧
      (∀ key2 key3,
        candidate_search 0x80000000 0x0883aad3 (load_inputs raw_inputs) =
            some (search_result.Found key2 key3) →
          ∀ h ∈ load_inputs raw_inputs, h.verify_keys key2 key3 = true) ∧
      ((¬ ∃ key2 key3, ∀ h ∈ load_inputs raw_inputs, h.verify_keys key2 key3 = true) →
        candidate_search 0x80000000 0x0883aad3 (load_inputs raw_inputs) =
          some search_result.NotFound) :=
  candidate_search_sound (load_inputs raw_inputs) 0x80000000 0x0883aad3 (by decide)
    (load_inputs_memo raw_inputs) (by decide)

/-- C2. Search completeness. When some 32-bit `key2` and some `key3` satisfy the
half-round equation (`verify_keys`) for every observation of a non-empty input,
the pipeline bitmap, fast solver, candidate search reports `Found`; so it returns
`NotFound` only on inputs that no key pair fits. -/
theorem main_complete (raw : List (Nat × Nat × Nat × Nat)) (hne : raw ≠ [])
    (key2 key3 : Nat) (hk2 : key2 < 2 ^ 32)
    (hsat : ∀ h ∈ load_inputs raw, h.verify_keys key2 key3 = true) :
    (∃ k2 k3, main raw = some (search_result.Found k2 k3)) ∧
      main raw ≠ some search_result.NotFound := by
  obtain ⟨k2, k3, h⟩ := main_found_of_verify raw hne key2 key3 hk2 hsat
  refine ⟨⟨k2, k3, h⟩, ?_⟩
  rw [h]
  intro hc
  cases hc

/-- Witness for C2 on the reference dataset of `main.cpp`. -/
theorem main_complete_witness :
    (∃ k2 k3, main raw_inputs = some (search_result.Found k2 k3)) ∧
      main raw_inputs ≠ some search_result.NotFound :=
  main_complete raw_inputs (by decide) 0x8883aad3 0xbdc49ea7 (by decide) (by decide)

/-- C3. Differential correctness of the fast solver. On observations in states
reachable from their constructor that all satisfy the half-round equation for one
pair `(key2, key3)`, the fast solver returns a partial key whose bit `n` equals
bit `n` of `key2` at every solvable position `n` in 0..30; and when the `a` values
cover all 31 low bits with both 0 and 1, `solvable_bits` is `0x7FFFFFFF` and the
partial key is `key2 & 0x7FFFFFFF`. -/
theorem fast_solver_differential (inp : input_data) (key2 key3 : Nat)
    (hm : ∀ h ∈ inp, memo_ok h)
    (hsat : ∀ h ∈ inp, h.verify_keys key2 key3 = true) :
    ∃ k, fast_solver (bitmap.build inp).1 (bitmap.build inp).2
          (bitmap.build inp).2.solvable_bits = some k ∧
      (∀ n, n ≤ 30 → (bitmap.build inp).2.solvable_bits.testBit n = true →
        k.testBit n = key2.testBit n) ∧
      ((∀ i, i < 31 →
          (∃ h ∈ inp, h.a.testBit i = true) ∧ (∃ h ∈ inp, h.a.testBit i = false)) →
        (bitmap.build inp).2.solvable_bits = 0x7FFFFFFF ∧ k = key2 &&& 0x7FFFFFFF) := by
  have hcons : ∀ h ∈ inp, h.calc_diff_term.diff_term = add32 (key2 ^^^ h.a) key3 :=
    fun h hh => diff_term_of_verify h (hm h hh) key2 key3 (hsat h hh)
  refine ⟨_, fast_solver_consistent inp key2 key3 hcons, ?_, ?_⟩
  · intro n _ hn
    rw [Nat.testBit_and, hn, Bool.and_true]
  · intro hcov
    have hsb := build_solvable_of_cover inp hcov
    exact ⟨hsb, by rw [hsb]⟩

/-- Witness for C3 on the reference dataset of `main.cpp`. -/
theorem fast_solver_differential_witness :
    ∃ k, fast_solver (bitmap.build (load_inputs raw_inputs)).1
          (bitmap.build (load_inputs raw_inputs)).2
          (bitmap.build (load_inputs raw_inputs)).2.solvable_bits = some k ∧
      (∀ n, n ≤ 30 →
        (bitmap.build (load_inputs raw_inputs)).2.solvable_bits.testBit n = true →
          k.testBit n = (0x8883aad3 : Nat).testBit n) ∧
      ((∀ i, i < 31 →
          (∃ h ∈ load_inputs raw_inputs, h.a.testBit i = true) ∧
            (∃ h ∈ load_inputs raw_inputs, h.a.testBit i = false)) →
        (bitmap.build (load_inputs raw_inputs)).2.solvable_bits = 0x7FFFFFFF ∧
          k = 0x8883aad3 &&& 0x7FFFFFFF) :=
  fast_solver_differential (load_inputs raw_inputs) 0x8883aad3 0xbdc49ea7
    (load_inputs_memo raw_inputs) (by decide)

/-- C4, as stated, fails. The dataset `msb_clear_inputs` is computed forward from
`key2 = 0x12345678`, `key3 = 0x9abcdef0` and its `a` values cover all 31 low bits
with both 0 and 1, yet `main` reports `Found 0x92345678 0x1abcdef0`: bit 31 of
`key2` and the value of `key3` are not the chosen ones. -/
theorem main_msb_counterexample :
    (∀ h ∈ load_inputs msb_clear_inputs, h.verify_keys 0x12345678 0x9abcdef0 = true) ∧
      (∀ i, i < 31 → (∃ r ∈ msb_clear_inputs, r.1.testBit i = true) ∧
        (∃ r ∈ msb_clear_inputs, r.1.testBit i = false)) ∧
      main msb_clear_inputs = some (search_result.Found 0x92345678 0x1abcdef0) ∧
      main msb_clear_inputs ≠ some (search_result.Found 0x12345678 0x9abcdef0) := by
  have hsat : ∀ h ∈ load_inputs msb_clear_inputs,
      h.verify_keys 0x12345678 0x9abcdef0 = true := by decide
  have hcov : ∀ i, i < 31 → (∃ r ∈ msb_clear_inputs, r.1.testBit i = true) ∧
      (∃ r ∈ msb_clear_inputs, r.1.testBit i = false) := by decide
  have hcov2 : ∀ i, i < 31 →
      (∃ h ∈ load_inputs msb_clear_inputs, h.a.testBit i = true) ∧
        (∃ h ∈ load_inputs msb_clear_inputs, h.a.testBit i = false) := by decide
  have hmain := main_covering msb_clear_inputs (by decide) 0x12345678 0x9abcdef0
    (by decide) (by decide) (by decide) hsat (build_solvable_of_cover _ hcov2)
  have hval : main msb_clear_inputs = some (search_result.Found 0x92345678 0x1abcdef0) := by
    rw [hmain]
    decide
  refine ⟨hsat, hcov, hval, ?_⟩
  rw [hval]
  decide

/-- C4, amended. For a dataset computed forward from 32-bit keys `(key2, key3)`
whose 32-bit `a` values cover all 31 low bits with both 0 and 1, `main` reports
`Found k2 k3` where `k2` is `key2` with bit 31 set and `k3` is `key3` when bit 31
of `key2` is 1 and `key3 + 0x80000000` (mod 2^32) when it is 0; the pair found is
the chosen pair exactly when bit 31 of the chosen `key2` is 1. -/
theorem main_covering_result (raw : List (Nat × Nat × Nat × Nat)) (key2 key3 : Nat)
    (hk2 : key2 < 2 ^ 32) (hk3 : key3 < 2 ^ 32) (hraw : ∀ r ∈ raw, r.1 < 2 ^ 32)
    (hsat : ∀ h ∈ load_inputs raw, h.verify_keys key2 key3 = true)
    (hcov : ∀ i, i < 31 →
      (∃ r ∈ raw, r.1.testBit i = true) ∧ (∃ r ∈ raw, r.1.testBit i = false)) :
    main raw = some (search_result.Found (key2 ||| 0x80000000)
        (if key2.testBit 31 = true then key3 else add32 key3 0x80000000)) ∧
      (key2.testBit 31 = true → main raw = some (search_result.Found key2 key3)) := by
  have hne : raw ≠ [] := by
    obtain ⟨r, hr, _⟩ := (hcov 0 (by decide)).1
    intro h
    rw [h] at hr
    cases hr
  have hcov2 : ∀ i, i < 31 →
      (∃ h ∈ load_inputs raw, h.a.testBit i = true) ∧
        (∃ h ∈ load_inputs raw, h.a.testBit i = false) := by
    intro i hi
    obtain ⟨⟨r1, hr1, hv1⟩, ⟨r0, hr0, hv0⟩⟩ := hcov i hi
    exact ⟨⟨_, List.mem_map.2 ⟨r1, hr1, rfl⟩, hv1⟩, ⟨_, List.mem_map.2 ⟨r0, hr0, rfl⟩, hv0⟩⟩
  have hmain := main_covering raw hne key2 key3 hk2 hk3 hraw hsat
    (build_solvable_of_cover _ hcov2)
  refine ⟨hmain, ?_⟩
  intro hb
  rw [hmain, if_pos hb]
  have h31 : (0x80000000 : Nat) = 2 ^ 31 := by norm_num
  rw [h31, or_msb, if_pos hb]

/-- Witness for the amended C4 on the reference dataset of `main.cpp`. -/
theorem main_covering_result_witness :
    main raw_inputs = some (search_result.Found (0x8883aad3 ||| 0x80000000)
        (if (0x8883aad3 : Nat).testBit 31 = true then 0xbdc49ea7
          else add32 0xbdc49ea7 0x80000000)) ∧
      ((0x8883aad3 : Nat).testBit 31 = true →
        main raw_inputs = some (search_result.Found 0x8883aad3 0xbdc49ea7)) :=
  main_covering_result raw_inputs 0x8883aad3 0xbdc49ea7 (by decide) (by decide) (by decide)
    (by decide) (by decide)

/-- C5. The two verification paths agree: on an observation in either state
reachable from its constructor (fresh, or with the difference term cached), with a
32-bit `b_prime`, and for every `key2` and every 32-bit `key3`,
`verify_keys key2 key3` is true exactly when `key3_from_key2 key2` returns `key3`. -/
theorem verify_keys_iff_key3_from_key2 (a b sum b_prime key2 key3 : Nat)
    (hbp : b_prime < 2 ^ 32) (hk3 : key3 < 2 ^ 32) (h : half_round)
    (hh : h = half_round.new a b sum b_prime ∨
      h = (half_round.new a b sum b_prime).calc_diff_term) :
    h.verify_keys key2 key3 = true ↔ (h.key3_from_key2 key2).1 = key3 := by
  rcases hh with rfl | rfl
  · rw [verify_keys_eq, key3_from_key2_new, decide_eq_true_iff]
    exact forward_eq_iff a b sum b_prime key2 key3 hbp hk3
  · rw [verify_keys_eq, key3_from_key2_cached, decide_eq_true_iff]
    exact forward_eq_iff a b sum b_prime key2 key3 hbp hk3

/-- Witness for C5 on the first tuple of the reference dataset, difference term
cached. -/
theorem verify_keys_iff_key3_from_key2_witness :
    (half_round.new 0xea7895f7 0x98e346f7 0x28b7bd67 0xa0b58ff4).calc_diff_term.verify_keys
        0x8883aad3 0xbdc49ea7 = true ↔
      ((half_round.new 0xea7895f7 0x98e346f7 0x28b7bd67 0xa0b58ff4).calc_diff_term.key3_from_key2
        0x8883aad3).1 = 0xbdc49ea7 :=
  verify_keys_iff_key3_from_key2 0xea7895f7 0x98e346f7 0x28b7bd67 0xa0b58ff4 0x8883aad3
    0xbdc49ea7 (by decide) (by decide) _ (Or.inr rfl)

/-- C6. Difference-term identity: an observation constructed with
`b_prime = b - ((a<<4) + (key2 ^ a) + ((a>>5) ^ sum) + key3)` (mod 2^32) has,
after `calc_diff_term`, `diff_term = (key2 ^ a) + key3` (mod 2^32) and
`diff_term_set = true`, and the stored value is
`b - b_prime - (a<<4) - ((a>>5) ^ sum)`, computed from the four traced words. -/
theorem calc_diff_term_identity (a b sum key2 key3 : Nat) :
    ((half_round.new a b sum
        (sub32 b (add32 (add32 (add32 (shl32 a 4) (key2 ^^^ a)) ((a >>> 5) ^^^ sum))
          key3))).calc_diff_term.diff_term = add32 (key2 ^^^ a) key3) ∧
      (half_round.new a b sum
        (sub32 b (add32 (add32 (add32 (shl32 a 4) (key2 ^^^ a)) ((a >>> 5) ^^^ sum))
          key3))).calc_diff_term.diff_term_set = true ∧
      ∀ b_prime, (half_round.new a b sum b_prime).calc_diff_term.diff_term =
        sub32 (sub32 (sub32 b b_prime) (shl32 a 4)) ((a >>> 5) ^^^ sum) := by
  refine ⟨?_, rfl, fun _ => rfl⟩
  exact diff_of_forward a b sum key2 key3

/-- C7. Characterisation of `solvable_bits`: for every observation vector, also
the empty one, and every bit position `i`, bit `i` of `solvable_bits()` is set
exactly when `i <= 30` and the vector holds an observation whose `a` has bit `i`
set and one whose `a` has bit `i` clear. Bit 31 is never set, so
`unknown_mask = ~solvable_bits` always has bit 31 set. -/
theorem solvable_bits_characterisation (inp : input_data) :
    (∀ i, (bitmap.build inp).2.solvable_bits.testBit i = true ↔
        (i ≤ 30 ∧ (∃ h ∈ inp, h.a.testBit i = true) ∧ (∃ h ∈ inp, h.a.testBit i = false))) ∧
      (bitmap.build inp).2.solvable_bits.testBit 31 = false ∧
      (not32 (bitmap.build inp).2.solvable_bits).testBit 31 = true := by
  have h31 : (bitmap.build inp).2.solvable_bits.testBit 31 = false := by
    cases h : (bitmap.build inp).2.solvable_bits.testBit 31
    · rfl
    · have := ((build_solvable_iff inp 31).1 h).1
      omega
  refine ⟨?_, h31, ?_⟩
  · intro i
    rw [build_solvable_iff]
    constructor
    · rintro ⟨h1, h2⟩
      exact ⟨by omega, h2⟩
    · rintro ⟨h1, h2⟩
      exact ⟨by omega, h2⟩
  · have hlt : (bitmap.build inp).2.solvable_bits < 2 ^ 32 := by
      have := build_solvable_lt inp
      have h2 : (2 : Nat) ^ 31 < 2 ^ 32 := by norm_num
      omega
    rw [testBit_not32 _ _ hlt, h31]
    rfl

/-- C8. Submask enumeration completeness: for every 32-bit `unknown_mask`, the
values `submask` takes in the loop, followed by the explicit value 0, form a
finite list that is strictly decreasing, holds only subsets of `unknown_mask`,
holds every subset of `unknown_mask` exactly once, and has
`2 ^ popcount unknown_mask` entries. -/
theorem submask_enumeration (unknown_mask : Nat) (hm : unknown_mask < 2 ^ 32) :
    (submask_seq unknown_mask).Pairwise (fun x y => x > y) ∧
      (∀ u ∈ submask_seq unknown_mask, u &&& unknown_mask = u) ∧
      (∀ u, u &&& unknown_mask = u → (submask_seq unknown_mask).count u = 1) ∧
      (submask_seq unknown_mask).length = 2 ^ popcount unknown_mask := by
  refine ⟨submask_seq_pairwise unknown_mask hm, ?_, ?_, submask_seq_length unknown_mask hm⟩
  · intro u hu
    exact (submask_seq_mem unknown_mask hm u).1 hu
  · intro u hu
    exact List.count_eq_one_of_mem (submask_seq_nodup unknown_mask hm)
      ((submask_seq_mem unknown_mask hm u).2 hu)

/-- Witness for C8 at `unknown_mask = 0x80000005`. -/
theorem submask_enumeration_witness :
    (submask_seq 0x80000005).Pairwise (fun x y => x > y) ∧
      (∀ u ∈ submask_seq 0x80000005, u &&& 0x80000005 = u) ∧
      (∀ u, u &&& 0x80000005 = u → (submask_seq 0x80000005).count u = 1) ∧
      (submask_seq 0x80000005).length = 2 ^ popcount 0x80000005 :=
  submask_enumeration 0x80000005 (by decide)

/-- C9. End-to-end scenario: on the seven-tuple reference dataset of `main.cpp`
the pipeline reports `Found 0x8883aad3 0xbdc49ea7`, and `verify_keys` accepts that
pair for all seven tuples. -/
theorem main_reference_dataset :
    main raw_inputs = some (search_result.Found 0x8883aad3 0xbdc49ea7) ∧
      (∀ h ∈ load_inputs raw_inputs, h.verify_keys 0x8883aad3 0xbdc49ea7 = true) ∧
      (load_inputs raw_inputs).length = 7 := by
  have hsat : ∀ h ∈ load_inputs raw_inputs, h.verify_keys 0x8883aad3 0xbdc49ea7 = true := by
    decide
  have hcov : ∀ i, i < 31 →
      (∃ h ∈ load_inputs raw_inputs, h.a.testBit i = true) ∧
        (∃ h ∈ load_inputs raw_inputs, h.a.testBit i = false) := by decide
  have hmain := main_covering raw_inputs (by decide) 0x8883aad3 0xbdc49ea7
    (by decide) (by decide) (by decide) hsat (build_solvable_of_cover _ hcov)
  refine ⟨?_, hsat, rfl⟩
  rw [hmain]
  decide

/-- C10. Order independence for consistent datasets: when some 32-bit `key2` and
some `key3` satisfy the half-round equation for every observation of a non-empty
input, every permutation of the input gives the same `solvable_bits` and the same
result of `main`, which is a `Found`. -/
theorem main_order_independent (raw raw2 : List (Nat × Nat × Nat × Nat))
    (hp : raw.Perm raw2) (hne : raw ≠ []) (key2 key3 : Nat) (hk2 : key2 < 2 ^ 32)
    (hsat : ∀ h ∈ load_inputs raw, h.verify_keys key2 key3 = true) :
    (bitmap.build (load_inputs raw2)).2.solvable_bits =
        (bitmap.build (load_inputs raw)).2.solvable_bits ∧
      main raw2 = main raw ∧ ∃ k2 k3, main raw = some (search_result.Found k2 k3) := by
  have hpl : (load_inputs raw).Perm (load_inputs raw2) := hp.map _
  have hsb : (bitmap.build (load_inputs raw2)).2.solvable_bits =
      (bitmap.build (load_inputs raw)).2.solvable_bits := by
    apply Nat.eq_of_testBit_eq
    intro i
    rw [Bool.eq_iff_iff, build_solvable_iff, build_solvable_iff]
    constructor
    · rintro ⟨h1, ⟨x, hx, hxv⟩, ⟨y, hy, hyv⟩⟩
      exact ⟨h1, ⟨x, hpl.mem_iff.2 hx, hxv⟩, ⟨y, hpl.mem_iff.2 hy, hyv⟩⟩
    · rintro ⟨h1, ⟨x, hx, hxv⟩, ⟨y, hy, hyv⟩⟩
      exact ⟨h1, ⟨x, hpl.mem_iff.1 hx, hxv⟩, ⟨y, hpl.mem_iff.1 hy, hyv⟩⟩
  have hne2 : raw2 ≠ [] := by
    intro h
    rw [h] at hp
    exact hne (List.Perm.eq_nil hp)
  have hsat2 : ∀ h ∈ load_inputs raw2, h.verify_keys key2 key3 = true :=
    fun h hh => hsat h (hpl.mem_iff.2 hh)
  refine ⟨hsb, ?_, main_found_of_verify raw hne key2 key3 hk2 hsat⟩
  rw [main_consistent raw hne key2 key3 hsat, main_consistent raw2 hne2 key2 key3 hsat2, hsb]
  unfold search_spec
  rw [loop_result_perm hp]

/-- Witness for C10: the reference dataset of `main.cpp` and its reversal. -/
theorem main_order_independent_witness :
    (bitmap.build (load_inputs raw_inputs.reverse)).2.solvable_bits =
        (bitmap.build (load_inputs raw_inputs)).2.solvable_bits ∧
      main raw_inputs.reverse = main raw_inputs ∧
      ∃ k2 k3, main raw_inputs = some (search_result.Found k2 k3) :=
  main_order_independent raw_inputs raw_inputs.reverse (List.reverse_perm raw_inputs).symm
    (by decide) 0x8883aad3 0xbdc49ea7 (by decide) (by decide)

/-! ## The early exit of the constructor -/

theorem scan_bits_full (it : Nat) (s0 : scan_state)
    (hfull : ∀ j, j < 31 →
      s0.map.ones_mask.testBit j = true ∧ s0.map.zeros_mask.testBit j = true) :
    ∀ j, j ≤ 31 → scan_bits it s0 j = { inp := s0.inp, map := s0.map, a := s0.a >>> j } := by
  intro j
  induction j with
  | zero =>
    intro _
    rfl
  | succ j ih =>
    intro hj
    rw [scan_bits_succ, ih (by omega)]
    have hf := hfull j (by omega)
    by_cases hA : (s0.a >>> j) &&& 1 ≠ 0
    · rw [scan_bit_one_old it { inp := s0.inp, map := s0.map, a := s0.a >>> j } j hA
        ((shiftRight_and_one_ne_zero_iff _ _).2 hf.1)]
      simp only [Nat.shiftRight_add]
    · rw [scan_bit_zero_old it { inp := s0.inp, map := s0.map, a := s0.a >>> j } j hA
        ((shiftRight_and_one_ne_zero_iff _ _).2 hf.2)]
      simp only [Nat.shiftRight_add]

theorem full_of_break (m : bitmap) (h : m.ones_mask &&& m.zeros_mask = 0x7fffffff) :
    ∀ j, j < 31 → m.ones_mask.testBit j = true ∧ m.zeros_mask.testBit j = true := by
  intro j hj
  have h1 : (m.ones_mask &&& m.zeros_mask).testBit j = true := by
    rw [h, testBit_mask31]
    simpa using hj
  rw [Nat.testBit_and, Bool.and_eq_true] at h1
  exact h1

/-- Once all 31 positions are solvable, scanning a further observation changes
neither the bitmap nor the input vector. -/
theorem scan_entry_full (inp : input_data) (m : bitmap) (it : Nat)
    (h : m.ones_mask &&& m.zeros_mask = 0x7fffffff) :
    bitmap.scan_entry inp m it = (inp, m) := by
  rw [scan_entry_eq, scan_bits_full it _ (full_of_break m h) 31 (le_refl _)]

theorem scan_from_nobreak_full (n : Nat) :
    ∀ (it : Nat) (inp : input_data) (m : bitmap),
      m.ones_mask &&& m.zeros_mask = 0x7fffffff →
        bitmap.scan_from_nobreak n it inp m = (inp, m) := by
  induction n with
  | zero =>
    intro it inp m _
    rfl
  | succ n ih =>
    intro it inp m h
    have hsucc : bitmap.scan_from_nobreak (n + 1) it inp m =
        bitmap.scan_from_nobreak n (it + 1) (bitmap.scan_entry inp m it).1
          (bitmap.scan_entry inp m it).2 := rfl
    rw [hsucc, scan_entry_full inp m it h]
    exact ih (it + 1) inp m h

theorem scan_from_eq_nobreak (n : Nat) :
    ∀ (it : Nat) (inp : input_data) (m : bitmap),
      bitmap.scan_from n it inp m = bitmap.scan_from_nobreak n it inp m := by
  induction n with
  | zero =>
    intro it inp m
    rfl
  | succ n ih =>
    intro it inp m
    have hsucc : bitmap.scan_from (n + 1) it inp m =
        if (bitmap.scan_entry inp m it).2.ones_mask &&&
            (bitmap.scan_entry inp m it).2.zeros_mask = 0x7fffffff then
          bitmap.scan_entry inp m it
        else bitmap.scan_from n (it + 1) (bitmap.scan_entry inp m it).1
          (bitmap.scan_entry inp m it).2 := rfl
    have hsucc2 : bitmap.scan_from_nobreak (n + 1) it inp m =
        bitmap.scan_from_nobreak n (it + 1) (bitmap.scan_entry inp m it).1
          (bitmap.scan_entry inp m it).2 := rfl
    rw [hsucc, hsucc2]
    by_cases hbrk : (bitmap.scan_entry inp m it).2.ones_mask &&&
        (bitmap.scan_entry inp m it).2.zeros_mask = 0x7fffffff
    · rw [if_pos hbrk, scan_from_nobreak_full n (it + 1) _ _ hbrk]
    · rw [if_neg hbrk]
      exact ih (it + 1) _ _

/-- C12. The early exit is a pure optimisation: for every observation vector, the
constructor with the `break` returns the same input vector (so the same
`diff_term` and `diff_term_set` on every observation) and the same bitmap (the same
`ones_mask`, `zeros_mask` and the same one/zero reference at every bit position) as
the constructor that scans the whole vector without the `break`. -/
theorem build_eq_build_nobreak (inp : input_data) :
    bitmap.build inp = bitmap.build_nobreak inp ∧
      (bitmap.build inp).2.ones_mask = (bitmap.build_nobreak inp).2.ones_mask ∧
      (bitmap.build inp).2.zeros_mask = (bitmap.build_nobreak inp).2.zeros_mask ∧
      (∀ bit, (bitmap.build inp).2.at bit = (bitmap.build_nobreak inp).2.at bit) ∧
      ∀ i : Nat, ((bitmap.build inp).1[i]?).map (fun h : half_round => (h.diff_term, h.diff_term_set)) =
        ((bitmap.build_nobreak inp).1[i]?).map (fun h : half_round => (h.diff_term, h.diff_term_set)) := by
  have h : bitmap.build inp = bitmap.build_nobreak inp :=
    scan_from_eq_nobreak inp.length 0 inp bitmap.empty
  refine ⟨h, ?_, ?_, ?_, ?_⟩
  · rw [h]
  · rw [h]
  · intro bit
    rw [h]
  · intro i
    rw [h]

/-! ## Properties of the constructed bitmap -/

theorem calc_diff_term_set (h : half_round) : h.calc_diff_term.diff_term_set = true := by
  unfold half_round.calc_diff_term
  cases hs : h.diff_term_set <;> simp [hs]

theorem calc_diff_term_of_set (h : half_round) (hs : h.diff_term_set = true) :
    h.calc_diff_term = h := by
  unfold half_round.calc_diff_term
  simp [hs]

theorem calc_diff_term_words (h : half_round) :
    h.calc_diff_term.a = h.a ∧ h.calc_diff_term.b = h.b ∧ h.calc_diff_term.sum = h.sum ∧
      h.calc_diff_term.b_prime = h.b_prime := by
  unfold half_round.calc_diff_term
  split <;> exact ⟨rfl, rfl, rfl, rfl⟩

/-- The entry of the built bitmap at a solvable position: both references are
stored, each is the earliest observation with the matching bit, and each
observation has had `calc_diff_term` called. -/
theorem build_refs (inp : input_data) (n : Nat)
    (hn : (bitmap.build inp).2.solvable_bits.testBit n = true) :
    ∃ z o xz xo, ((bitmap.build inp).2.at n).zero = some z ∧
      ((bitmap.build inp).2.at n).one = some o ∧
      first_with inp n false z ∧ first_with inp n true o ∧
      inp[z]? = some xz ∧ inp[o]? = some xo ∧
      xz.a.testBit n = false ∧ xo.a.testBit n = true ∧
      (bitmap.build inp).1[z]? = some xz.calc_diff_term ∧
      (bitmap.build inp).1[o]? = some xo.calc_diff_term := by
  obtain ⟨k, hs, _⟩ := build_spec inp
  rw [solvable_testBit, Bool.and_eq_true] at hn
  obtain ⟨o, ho⟩ := (hs.ones n).1 hn.1
  obtain ⟨z, hz⟩ := (hs.zeros n).1 hn.2
  have hfo := ((hs.one_iff n o).1 ho).2.2
  have hfz := ((hs.zero_iff n z).1 hz).2.2
  obtain ⟨xo, hxo, hvo⟩ := hfo.1
  obtain ⟨xz, hxz, hvz⟩ := hfz.1
  refine ⟨z, o, xz, xo, hz, ho, hfz, hfo, hxz, hxo, hvz, hvo, ?_, ?_⟩
  · rw [hs.cached z ⟨n, Or.inr hz⟩, hxz]
    rfl
  · rw [hs.cached o ⟨n, Or.inl ho⟩, hxo]
    rfl

/-- C11. Idempotence of the difference term: for every observation, calling
`calc_diff_term` twice leaves the same state as calling it once, and
`key3_from_key2` after it leaves that state too; and on an observation whose
`diff_term_set` is true (any field values), neither `calc_diff_term` nor
`key3_from_key2`, for any `key2`, changes `diff_term` or any other field. -/
theorem calc_diff_term_idempotent (h : half_round) (key2 a b sum b_prime d : Nat) :
    h.calc_diff_term.calc_diff_term = h.calc_diff_term ∧
      (h.calc_diff_term.key3_from_key2 key2).2 = h.calc_diff_term ∧
      (half_round.mk a b sum b_prime d true).calc_diff_term =
        half_round.mk a b sum b_prime d true ∧
      ((half_round.mk a b sum b_prime d true).key3_from_key2 key2).2 =
        half_round.mk a b sum b_prime d true ∧
      ((half_round.mk a b sum b_prime d true).calc_diff_term).diff_term = d ∧
      (((half_round.mk a b sum b_prime d true).key3_from_key2 key2).2).diff_term = d := by
  refine ⟨calc_diff_term_idem h, ?_, rfl, rfl, rfl, rfl⟩
  rw [key3_from_key2_state]
  exact calc_diff_term_idem h

/-- C13. First-found wins: in the bitmap built over any observation vector, when
bit `i` of `ones_mask` is set the stored one-reference is the position of the
earliest observation whose `a` has bit `i` = 1, when bit `i` of `zeros_mask` is set
the stored zero-reference is the position of the earliest observation whose `a` has
bit `i` = 0, and at a solvable bit the referenced zero and one observations have
bit `i` of `a` equal to 0 and 1. -/
theorem first_found_wins (inp : input_data) (i : Nat) :
    ((bitmap.build inp).2.ones_mask.testBit i = true →
        ∃ j x, ((bitmap.build inp).2.at i).one = some j ∧ i ≤ 30 ∧
          inp[j]? = some x ∧ x.a.testBit i = true ∧
          ∀ j2 x2, j2 < j → inp[j2]? = some x2 → x2.a.testBit i = false) ∧
      ((bitmap.build inp).2.zeros_mask.testBit i = true →
        ∃ j x, ((bitmap.build inp).2.at i).zero = some j ∧ i ≤ 30 ∧
          inp[j]? = some x ∧ x.a.testBit i = false ∧
          ∀ j2 x2, j2 < j → inp[j2]? = some x2 → x2.a.testBit i = true) ∧
      ((bitmap.build inp).2.solvable_bits.testBit i = true →
        ∃ z o hz ho, ((bitmap.build inp).2.at i).zero = some z ∧
          ((bitmap.build inp).2.at i).one = some o ∧
          (bitmap.build inp).1[z]? = some hz ∧ (bitmap.build inp).1[o]? = some ho ∧
          hz.a.testBit i = false ∧ ho.a.testBit i = true) := by
  obtain ⟨k, hs, _⟩ := build_spec inp
  refine ⟨?_, ?_, ?_⟩
  · intro h1
    obtain ⟨j, hj⟩ := (hs.ones i).1 h1
    obtain ⟨hb, _, ⟨x, hx, hv⟩, hmin⟩ := (hs.one_iff i j).1 hj
    exact ⟨j, x, hj, by omega, hx, hv, fun j2 x2 h2 hx2 => by simpa using hmin j2 x2 h2 hx2⟩
  · intro h0
    obtain ⟨j, hj⟩ := (hs.zeros i).1 h0
    obtain ⟨hb, _, ⟨x, hx, hv⟩, hmin⟩ := (hs.zero_iff i j).1 hj
    exact ⟨j, x, hj, by omega, hx, hv, fun j2 x2 h2 hx2 => by simpa using hmin j2 x2 h2 hx2⟩
  · intro hsb
    obtain ⟨z, o, xz, xo, hz, ho, _, _, _, _, hvz, hvo, hiz, hio⟩ := build_refs inp i hsb
    refine ⟨z, o, _, _, hz, ho, hiz, hio, ?_, ?_⟩
    · rw [calc_diff_term_a]; exact hvz
    · rw [calc_diff_term_a]; exact hvo

theorem solve_bit_zero (inp : input_data) (m : bitmap) (acc bit : Nat) :
    solve_bit inp m 0 acc bit = some acc := by
  unfold solve_bit
  rw [if_neg]
  rw [Nat.zero_shiftRight, Nat.zero_and]
  exact fun h => h rfl

theorem fast_solver_zero (inp : input_data) (m : bitmap) : fast_solver inp m 0 = some 0 := by
  unfold fast_solver
  have h : ∀ (l : List Nat) (acc : Nat), l.foldlM (solve_bit inp m 0) acc = some acc := by
    intro l
    induction l with
    | nil =>
      intro acc
      rfl
    | cons x xs ih =>
      intro acc
      rw [List.foldlM_cons, solve_bit_zero]
      exact ih acc
  exact h _ 0

theorem build_solvable_short (inp : input_data) (h : inp.length < 2) :
    (bitmap.build inp).2.solvable_bits = 0 := by
  apply Nat.eq_of_testBit_eq
  intro i
  rw [Nat.zero_testBit]
  cases hb : (bitmap.build inp).2.solvable_bits.testBit i
  · rfl
  · obtain ⟨_, ⟨x, hx, hxv⟩, ⟨y, hy, hyv⟩⟩ := (build_solvable_iff inp i).1 hb
    cases inp with
    | nil => cases hx
    | cons u t =>
      cases t with
      | nil =>
        have hxu : x = u := by simpa using hx
        have hyu : y = u := by simpa using hy
        rw [hxu] at hxv
        rw [hyu, hxv] at hyv
        cases hyv
      | cons v t2 =>
        exfalso
        simp only [List.length_cons] at h
        omega

theorem build_frame (inp : input_data) (i : Nat) :
    (bitmap.build inp).1[i]? = inp[i]? ∨
      ((bitmap.build inp).1[i]? = inp[i]?.map half_round.calc_diff_term ∧
        ∃ bit, bit < 31 ∧ (((bitmap.build inp).2.at bit).one = some i ∨
          ((bitmap.build inp).2.at bit).zero = some i)) := by
  obtain ⟨k, hs, _⟩ := build_spec inp
  by_cases href : ∃ bit, ((bitmap.build inp).2.at bit).one = some i ∨
      ((bitmap.build inp).2.at bit).zero = some i
  · right
    refine ⟨hs.cached i href, ?_⟩
    obtain ⟨bit, hb⟩ := href
    refine ⟨bit, ?_, hb⟩
    rcases hb with hb | hb
    · exact ((hs.one_iff bit i).1 hb).1
    · exact ((hs.zero_iff bit i).1 hb).1
  · left
    exact hs.same i href

/-- C14. Difference terms are cached before the fast solver reads them: after the
bitmap is built over observations in states reachable from their constructor,
every observation referenced by a one-slot or a zero-slot has
`diff_term_set = true` and `diff_term = b - b_prime - (a<<4) - ((a>>5) ^ sum)`; in
particular at every solvable bit both references are stored and point at such
observations, which are the ones whose `diff_term` field the fast solver reads. -/
theorem build_caches_diff_terms (inp : input_data) (hm : ∀ h ∈ inp, memo_ok h) :
    (∀ bit j, (((bitmap.build inp).2.at bit).one = some j ∨
          ((bitmap.build inp).2.at bit).zero = some j) →
        ∃ h, (bitmap.build inp).1[j]? = some h ∧ h.diff_term_set = true ∧
          h.diff_term =
            sub32 (sub32 (sub32 h.b h.b_prime) (shl32 h.a 4)) ((h.a >>> 5) ^^^ h.sum)) ∧
      ∀ n, (bitmap.build inp).2.solvable_bits.testBit n = true →
        ∃ z o hz ho, ((bitmap.build inp).2.at n).zero = some z ∧
          ((bitmap.build inp).2.at n).one = some o ∧
          (bitmap.build inp).1[z]? = some hz ∧ (bitmap.build inp).1[o]? = some ho ∧
          hz.diff_term_set = true ∧ ho.diff_term_set = true ∧
          hz.diff_term =
            sub32 (sub32 (sub32 hz.b hz.b_prime) (shl32 hz.a 4)) ((hz.a >>> 5) ^^^ hz.sum) ∧
          ho.diff_term =
            sub32 (sub32 (sub32 ho.b ho.b_prime) (shl32 ho.a 4)) ((ho.a >>> 5) ^^^ ho.sum) := by
  have hval : ∀ x ∈ inp, x.calc_diff_term.diff_term_set = true ∧
      x.calc_diff_term.diff_term =
        sub32 (sub32 (sub32 x.calc_diff_term.b x.calc_diff_term.b_prime)
          (shl32 x.calc_diff_term.a 4)) ((x.calc_diff_term.a >>> 5) ^^^ x.calc_diff_term.sum) := by
    intro x hx
    obtain ⟨w1, w2, w3, w4⟩ := calc_diff_term_words x
    refine ⟨calc_diff_term_set x, ?_⟩
    rw [w1, w2, w3, w4]
    exact calc_diff_term_value x (hm x hx)
  obtain ⟨k, hs, _⟩ := build_spec inp
  constructor
  · intro bit j href
    have hc := hs.cached j ⟨bit, href⟩
    have hex : ∃ x, inp[j]? = some x := by
      rcases href with h1 | h0
      · obtain ⟨x, hx, _⟩ := ((hs.one_iff bit j).1 h1).2.2.1
        exact ⟨x, hx⟩
      · obtain ⟨x, hx, _⟩ := ((hs.zero_iff bit j).1 h0).2.2.1
        exact ⟨x, hx⟩
    obtain ⟨x, hx⟩ := hex
    rw [hx] at hc
    obtain ⟨v1, v2⟩ := hval x (List.getElem?_mem hx)
    exact ⟨x.calc_diff_term, hc, v1, v2⟩
  · intro n hn
    obtain ⟨z, o, xz, xo, hz, ho, _, _, hxz, hxo, _, _, hiz, hio⟩ := build_refs inp n hn
    obtain ⟨z1, z2⟩ := hval xz (List.getElem?_mem hxz)
    obtain ⟨o1, o2⟩ := hval xo (List.getElem?_mem hxo)
    exact ⟨z, o, _, _, hz, ho, hiz, hio, z1, o1, z2, o2⟩

/-- Witness for C14 on the reference dataset of `main.cpp`. -/
theorem build_caches_diff_terms_witness :
    (∀ bit j, (((bitmap.build (load_inputs raw_inputs)).2.at bit).one = some j ∨
          ((bitmap.build (load_inputs raw_inputs)).2.at bit).zero = some j) →
        ∃ h, (bitmap.build (load_inputs raw_inputs)).1[j]? = some h ∧
          h.diff_term_set = true ∧
          h.diff_term =
            sub32 (sub32 (sub32 h.b h.b_prime) (shl32 h.a 4)) ((h.a >>> 5) ^^^ h.sum)) ∧
      ∀ n, (bitmap.build (load_inputs raw_inputs)).2.solvable_bits.testBit n = true →
        ∃ z o hz ho, ((bitmap.build (load_inputs raw_inputs)).2.at n).zero = some z ∧
          ((bitmap.build (load_inputs raw_inputs)).2.at n).one = some o ∧
          (bitmap.build (load_inputs raw_inputs)).1[z]? = some hz ∧
          (bitmap.build (load_inputs raw_inputs)).1[o]? = some ho ∧
          hz.diff_term_set = true ∧ ho.diff_term_set = true ∧
          hz.diff_term =
            sub32 (sub32 (sub32 hz.b hz.b_prime) (shl32 hz.a 4)) ((hz.a >>> 5) ^^^ hz.sum) ∧
          ho.diff_term =
            sub32 (sub32 (sub32 ho.b ho.b_prime) (shl32 ho.a 4)) ((ho.a >>> 5) ^^^ ho.sum) :=
  build_caches_diff_terms (load_inputs raw_inputs) (load_inputs_memo raw_inputs)

/-- C16. Degenerate input: on fewer than two observations (none, or a single
one) `solvable_bits` is 0, so the fast solver leaves `key2 = 0`, `known_bits` is 0
and `unknown_mask` is `0xFFFFFFFF`: every bit of `key2` is left to the search. -/
theorem short_input_unsolvable (inp : input_data) (h : inp.length < 2) :
    (bitmap.build inp).2.solvable_bits = 0 ∧
      fast_solver (bitmap.build inp).1 (bitmap.build inp).2
        (bitmap.build inp).2.solvable_bits = some 0 ∧
      not32 (bitmap.build inp).2.solvable_bits = 0xFFFFFFFF ∧
      ∀ key2, key2 &&& (bitmap.build inp).2.solvable_bits = 0 := by
  have hsb := build_solvable_short inp h
  rw [hsb]
  exact ⟨rfl, fast_solver_zero _ _, by decide, fun key2 => Nat.and_zero key2⟩

/-- Witness for C16 on the first tuple of the reference dataset alone. -/
theorem short_input_unsolvable_witness :
    (bitmap.build [half_round.new 0xea7895f7 0x98e346f7 0x28b7bd67 0xa0b58ff4]).2.solvable_bits
        = 0 ∧
      fast_solver (bitmap.build [half_round.new 0xea7895f7 0x98e346f7 0x28b7bd67 0xa0b58ff4]).1
        (bitmap.build [half_round.new 0xea7895f7 0x98e346f7 0x28b7bd67 0xa0b58ff4]).2
        (bitmap.build
          [half_round.new 0xea7895f7 0x98e346f7 0x28b7bd67 0xa0b58ff4]).2.solvable_bits =
        some 0 ∧
      not32 (bitmap.build
        [half_round.new 0xea7895f7 0x98e346f7 0x28b7bd67 0xa0b58ff4]).2.solvable_bits =
        0xFFFFFFFF ∧
      ∀ key2, key2 &&& (bitmap.build
        [half_round.new 0xea7895f7 0x98e346f7 0x28b7bd67 0xa0b58ff4]).2.solvable_bits = 0 :=
  short_input_unsolvable [half_round.new 0xea7895f7 0x98e346f7 0x28b7bd67 0xa0b58ff4]
    (by decide)

/-- C17. Frame of the bitmap construction: for every observation vector, the
constructor leaves the length and order of the vector and the `a`, `b`, `sum`,
`b_prime` fields of every observation unchanged; an observation either keeps its
whole state, or it is recorded as a one- or zero-reference for some bit position
0..30 and its state is the one `calc_diff_term` gives. -/
theorem build_frame_effect (inp : input_data) :
    (bitmap.build inp).1.length = inp.length ∧
      (bitmap.build inp).1.map (fun h => (h.a, h.b, h.sum, h.b_prime)) =
        inp.map (fun h => (h.a, h.b, h.sum, h.b_prime)) ∧
      ∀ i : Nat, (bitmap.build inp).1[i]? = inp[i]? ∨
        ((bitmap.build inp).1[i]? = inp[i]?.map half_round.calc_diff_term ∧
          ∃ bit, bit < 31 ∧ (((bitmap.build inp).2.at bit).one = some i ∨
            ((bitmap.build inp).2.at bit).zero = some i)) := by
  obtain ⟨k, hs, _⟩ := build_spec inp
  refine ⟨hs.len, ?_, build_frame inp⟩
  apply List.ext_getElem?
  intro i
  rw [List.getElem?_map, List.getElem?_map]
  rcases build_frame inp i with h | ⟨h, _⟩
  · rw [h]
  · rw [h]
    cases inp[i]? with
    | none => rfl
    | some x =>
      obtain ⟨w1, w2, w3, w4⟩ := calc_diff_term_words x
      simp only [Option.map_some']
      rw [w1, w2, w3, w4]

/-! ## Symmetry in the most significant bit -/

theorem sub32_xor_msb (d y : Nat) (hy : y < 2 ^ 32) :
    sub32 d (y ^^^ 2 ^ 31) = add32 (sub32 d y) (2 ^ 31) := by
  rw [xor_msb _ hy]
  unfold sub32 add32
  split <;> omega

theorem sub32_add32_left (p c q : Nat) : sub32 (add32 p c) q = add32 (sub32 p q) c := by
  unfold sub32 add32
  omega

theorem xor_msb_assoc (key2 a : Nat) : (key2 ^^^ 2 ^ 31) ^^^ a = (key2 ^^^ a) ^^^ 2 ^ 31 := by
  rw [Nat.xor_assoc, Nat.xor_assoc, Nat.xor_comm (2 ^ 31)]

theorem forward_flip_msb (a b sum key2 key3 : Nat) (ha : a < 2 ^ 32) (hk : key2 < 2 ^ 32) :
    forward a b sum (key2 ^^^ 2 ^ 31) (add32 key3 (2 ^ 31)) = forward a b sum key2 key3 := by
  rw [forward_eq, forward_eq, xor_msb_assoc, sub32_xor_msb _ _ (Nat.xor_lt_two_pow hk ha),
    sub32_add32_left, sub32_add32_add32]

theorem key3_from_key2_flip_msb (h : half_round) (key2 : Nat) (ha : h.a < 2 ^ 32)
    (hk : key2 < 2 ^ 32) :
    (h.key3_from_key2 (key2 ^^^ 2 ^ 31)).1 = add32 (h.key3_from_key2 key2).1 (2 ^ 31) := by
  unfold half_round.key3_from_key2
  simp only []
  rw [xor_msb_assoc, calc_diff_term_a,
    sub32_xor_msb _ _ (Nat.xor_lt_two_pow hk ha)]

theorem testBit_xor_msb (x : Nat) : (x ^^^ 2 ^ 31).testBit 31 = !x.testBit 31 := by
  rw [Nat.testBit_xor, Nat.testBit_two_pow_self]
  cases x.testBit 31 <;> rfl

theorem add32_msb (x : Nat) (hx : x < 2 ^ 32) : add32 x (2 ^ 31) = x ^^^ 2 ^ 31 := by
  rw [xor_msb _ hx]
  unfold add32
  split <;> omega

/-- C18. Symmetry in the most significant bit: for 32-bit `key2`, `key3` and
observations with 32-bit `a`, `verify_keys (key2 ^ 0x80000000) (key3 + 0x80000000)`
equals `verify_keys key2 key3` and `key3_from_key2 (key2 ^ 0x80000000)` returns
`key3_from_key2 key2 + 0x80000000` (mod 2^32); hence a dataset that admits one
valid key pair admits a second one, which differs from it in bit 31 of both
keys. -/
theorem msb_symmetry (inp : input_data) (key2 key3 : Nat) (hk2 : key2 < 2 ^ 32)
    (hk3 : key3 < 2 ^ 32) (ha : ∀ h ∈ inp, h.a < 2 ^ 32) :
    (∀ h ∈ inp,
        h.verify_keys (key2 ^^^ 0x80000000) (add32 key3 0x80000000) =
            h.verify_keys key2 key3 ∧
          (h.key3_from_key2 (key2 ^^^ 0x80000000)).1 =
            add32 (h.key3_from_key2 key2).1 0x80000000) ∧
      ((∀ h ∈ inp, h.verify_keys key2 key3 = true) →
        ∀ h ∈ inp, h.verify_keys (key2 ^^^ 0x80000000) (add32 key3 0x80000000) = true) ∧
      (key2 ^^^ 0x80000000).testBit 31 = (!key2.testBit 31) ∧
      (add32 key3 0x80000000).testBit 31 = (!key3.testBit 31) ∧
      key2 ^^^ 0x80000000 < 2 ^ 32 ∧ add32 key3 0x80000000 < 2 ^ 32 := by
  have h31 : (0x80000000 : Nat) = 2 ^ 31 := by norm_num
  rw [h31]
  have hall : ∀ h ∈ inp,
      h.verify_keys (key2 ^^^ 2 ^ 31) (add32 key3 (2 ^ 31)) = h.verify_keys key2 key3 ∧
        (h.key3_from_key2 (key2 ^^^ 2 ^ 31)).1 = add32 (h.key3_from_key2 key2).1 (2 ^ 31) := by
    intro h hh
    refine ⟨?_, key3_from_key2_flip_msb h key2 (ha h hh) hk2⟩
    rw [verify_keys_eq, verify_keys_eq, forward_flip_msb _ _ _ _ _ (ha h hh) hk2]
  refine ⟨hall, ?_, testBit_xor_msb key2, ?_, ?_, add32_lt _ _⟩
  · intro hv h hh
    rw [(hall h hh).1]
    exact hv h hh
  · rw [add32_msb key3 hk3]
    exact testBit_xor_msb key3
  · exact Nat.xor_lt_two_pow hk2 (by norm_num)

/-- Witness for C18 on the reference dataset of `main.cpp` and the key pair found
for it. -/
theorem msb_symmetry_witness :
    (∀ h ∈ load_inputs raw_inputs,
        h.verify_keys (0x8883aad3 ^^^ 0x80000000) (add32 0xbdc49ea7 0x80000000) =
            h.verify_keys 0x8883aad3 0xbdc49ea7 ∧
          (h.key3_from_key2 (0x8883aad3 ^^^ 0x80000000)).1 =
            add32 (h.key3_from_key2 0x8883aad3).1 0x80000000) ∧
      ((∀ h ∈ load_inputs raw_inputs, h.verify_keys 0x8883aad3 0xbdc49ea7 = true) →
        ∀ h ∈ load_inputs raw_inputs,
          h.verify_keys (0x8883aad3 ^^^ 0x80000000) (add32 0xbdc49ea7 0x80000000) = true) ∧
      ((0x8883aad3 : Nat) ^^^ 0x80000000).testBit 31 = (!(0x8883aad3 : Nat).testBit 31) ∧
      (add32 0xbdc49ea7 0x80000000).testBit 31 = (!(0xbdc49ea7 : Nat).testBit 31) ∧
      (0x8883aad3 : Nat) ^^^ 0x80000000 < 2 ^ 32 ∧ add32 0xbdc49ea7 0x80000000 < 2 ^ 32 :=
  msb_symmetry (load_inputs raw_inputs) 0x8883aad3 0xbdc49ea7 (by decide) (by decide)
    (by decide)

/-! ## Which candidate the search reports -/

theorem find_first_greatest (p : Nat → Bool) :
    ∀ (l : List Nat) (s : Nat), l.Pairwise (fun x y => x > y) → l.find? p = some s →
      ∀ s2 ∈ l, p s2 = true → s2 ≤ s := by
  intro l
  induction l with
  | nil =>
    intro s _ hf
    cases hf
  | cons x xs ih =>
    intro s hp hf s2 hs2 hps2
    rw [List.pairwise_cons] at hp
    rw [List.find?_cons] at hf
    cases hpx : p x
    · rw [hpx] at hf
      rcases List.mem_cons.1 hs2 with rfl | hs2
      · rw [hpx] at hps2
        cases hps2
      · exact ih s hp.2 hf s2 hs2 hps2
    · rw [hpx] at hf
      have hxs : x = s := Option.some.inj hf
      rw [← hxs]
      rcases List.mem_cons.1 hs2 with rfl | hs2
      · exact le_refl _
      · exact Nat.le_of_lt (hp.1 s2 hs2)

theorem disjoint_or_eq_add (x : Nat) : ∀ y : Nat, x &&& y = 0 → x ||| y = x + y := by
  induction x using Nat.strong_induction_on with
  | _ x ih =>
    intro y h
    by_cases hx : x = 0
    · subst hx
      simp
    · have hd : x / 2 &&& y / 2 = 0 := by
        rw [← Nat.and_div_two, h]
      have hrec := ih (x / 2) (by omega) (y / 2) hd
      have hor : (x ||| y) / 2 = x / 2 ||| y / 2 := Nat.or_div_two
      have hm : (x &&& y) % 2 = 1 ↔ x % 2 = 1 ∧ y % 2 = 1 := Nat.and_mod_two_eq_one
      have hom : (x ||| y) % 2 = 1 ↔ x % 2 = 1 ∨ y % 2 = 1 := Nat.or_mod_two_eq_one
      rw [h] at hm
      rw [hrec] at hor
      omega

theorem submask_disjoint_known (s key2p sb : Nat) (hsb : sb < 2 ^ 32)
    (hs : s &&& not32 sb = s) : s &&& (key2p &&& sb) = 0 := by
  apply Nat.eq_of_testBit_eq
  intro i
  rw [Nat.testBit_and, Nat.testBit_and, Nat.zero_testBit]
  cases hsi : s.testBit i
  · rfl
  · have := (submask_iff_testBit s (not32 sb)).1 hs i hsi
    rw [testBit_not32 _ _ hsb] at this
    simp only [Bool.and_eq_true, decide_eq_true_eq, Bool.not_eq_true'] at this
    rw [this.2]
    simp

theorem candidate_mono (s s2 key2p sb : Nat) (hsb : sb < 2 ^ 32)
    (hs : s &&& not32 sb = s) (hs2 : s2 &&& not32 sb = s2) (hle : s2 ≤ s) :
    s2 ||| (key2p &&& sb) ≤ s ||| (key2p &&& sb) := by
  rw [disjoint_or_eq_add _ _ (submask_disjoint_known s key2p sb hsb hs),
    disjoint_or_eq_add _ _ (submask_disjoint_known s2 key2p sb hsb hs2)]
  omega

/-- The test `accepts` on the traced words is the agreement of the values
`key3_from_key2` returns on the observations with the value it returns on the
first one. -/
theorem accepts_iff_agree (inp : input_data) (hm : ∀ h ∈ inp, memo_ok h) (c : Nat) :
    accepts (inp.map raw_of) c = true ↔
      ∀ h ∈ inp, ∀ h0, inp.head? = some h0 →
        (h.key3_from_key2 c).1 = (h0.key3_from_key2 c).1 := by
  cases inp with
  | nil =>
    constructor
    · intro _ h hh
      cases hh
    · intro _
      rfl
  | cons x t =>
    rw [List.map_cons, accepts_cons_iff]
    have hmx : memo_ok x := hm x (List.mem_cons_self _ _)
    constructor
    · intro hacc h hh h0 hh0
      have e0 : x = h0 := by simpa using hh0
      rw [← e0, key3_from_key2_val h (hm h hh), key3_from_key2_val x hmx]
      rcases List.mem_cons.1 hh with rfl | hh
      · rfl
      · exact hacc _ (List.mem_map.2 ⟨h, hh, rfl⟩)
    · intro hag r hr
      obtain ⟨h, hh, rfl⟩ := List.mem_map.1 hr
      have := hag h (List.mem_cons_of_mem _ hh) x rfl
      rw [key3_from_key2_val h (hm h (List.mem_cons_of_mem _ hh)),
        key3_from_key2_val x hmx] at this
      exact this

/-- The candidate reported by the search is the greatest accepted candidate. -/
theorem search_spec_greatest (r : Nat × Nat × Nat × Nat) (t : List (Nat × Nat × Nat × Nat))
    (sb key2p k2 k3 : Nat) (hsb : sb < 2 ^ 32)
    (hf : search_spec (r :: t) (not32 sb) (key2p &&& sb) = search_result.Found k2 k3) :
    (∃ s, s &&& not32 sb = s ∧ k2 = s ||| (key2p &&& sb)) ∧
      accepts (r :: t) k2 = true ∧
      (∀ s, s &&& not32 sb = s → accepts (r :: t) (s ||| (key2p &&& sb)) = true →
        s ||| (key2p &&& sb) ≤ k2) ∧
      k3 = k3_raw r k2 := by
  unfold search_spec at hf
  have hum := not32_lt sb
  rcases loop_result_cases r t (key2p &&& sb) (submask_seq (not32 sb)) with
    ⟨h1, _⟩ | ⟨s, hmem, hacc, hfind, h4⟩
  · rw [h1] at hf
    cases hf
  · rw [h4] at hf
    injection hf with e2 e3
    have hs : s &&& not32 sb = s := (submask_seq_mem _ hum s).1 hmem
    refine ⟨⟨s, hs, e2.symm⟩, by rw [← e2]; exact hacc, ?_, by rw [← e2]; exact e3.symm⟩
    intro s2 hs2 hacc2
    have hle := find_first_greatest (fun s => accepts (r :: t) (s ||| (key2p &&& sb))) _ s
      (submask_seq_pairwise _ hum) hfind s2 ((submask_seq_mem _ hum s2).2 hs2) hacc2
    rw [← e2]
    exact candidate_mono s s2 key2p sb hsb hs hs2 hle

/-- What `main` does after the bitmap is built: the fast solver, then the
candidate search on its output. -/
theorem main_unfold (raw : List (Nat × Nat × Nat × Nat)) (res : search_result)
    (h : main raw = some res) :
    ∃ key2p, fast_solver (bitmap.build (load_inputs raw)).1 (bitmap.build (load_inputs raw)).2
        (bitmap.build (load_inputs raw)).2.solvable_bits = some key2p ∧
      candidate_search (not32 (bitmap.build (load_inputs raw)).2.solvable_bits)
        (key2p &&& (bitmap.build (load_inputs raw)).2.solvable_bits)
        (bitmap.build (load_inputs raw)).1 = some res := by
  unfold main at h
  simp only [] at h
  cases hfs : fast_solver (bitmap.build (load_inputs raw)).1 (bitmap.build (load_inputs raw)).2
      (bitmap.build (load_inputs raw)).2.solvable_bits with
  | none =>
    rw [hfs] at h
    cases h
  | some K =>
    rw [hfs] at h
    exact ⟨K, rfl, h⟩

/-- The run of `main` on the reference dataset of `main.cpp`. -/
theorem main_raw_inputs :
    main raw_inputs = some (search_result.Found 0x8883aad3 0xbdc49ea7) := by
  have hcov : ∀ i, i < 31 →
      (∃ h ∈ load_inputs raw_inputs, h.a.testBit i = true) ∧
        (∃ h ∈ load_inputs raw_inputs, h.a.testBit i = false) := by decide
  have hmain := main_covering raw_inputs (by decide) 0x8883aad3 0xbdc49ea7
    (by decide) (by decide) (by decide) (by decide) (build_solvable_of_cover _ hcov)
  rw [hmain]
  decide

/-- The search of `main` seen from the traced words: its input vector is
non-empty, in reachable states, carries the words of `raw`, and the result is
`search_spec`. -/
theorem main_search_spec (raw : List (Nat × Nat × Nat × Nat)) (hne : raw ≠ []) (key2p : Nat) :
    (bitmap.build (load_inputs raw)).1 ≠ [] ∧
      (∀ h ∈ (bitmap.build (load_inputs raw)).1, memo_ok h) ∧
      (bitmap.build (load_inputs raw)).1.map raw_of = raw ∧
      candidate_search (not32 (bitmap.build (load_inputs raw)).2.solvable_bits)
          (key2p &&& (bitmap.build (load_inputs raw)).2.solvable_bits)
          (bitmap.build (load_inputs raw)).1 =
        some (search_spec raw (not32 (bitmap.build (load_inputs raw)).2.solvable_bits)
          (key2p &&& (bitmap.build (load_inputs raw)).2.solvable_bits)) := by
  obtain ⟨ht1, ht2⟩ := build_tracks (load_inputs raw) (load_inputs_memo raw)
  rw [load_inputs_raw] at ht1
  have hne1 : (bitmap.build (load_inputs raw)).1 ≠ [] := by
    intro h
    rw [h] at ht1
    exact hne ht1.symm
  refine ⟨hne1, ht2, ht1, ?_⟩
  rw [candidate_search_spec _ _ _ hne1 ht2, ht1]

theorem solvable_lt32 (inp : input_data) : (bitmap.build inp).2.solvable_bits < 2 ^ 32 := by
  have := build_solvable_lt inp
  have h2 : (2 : Nat) ^ 31 < 2 ^ 32 := by norm_num
  omega

/-- C15. First match wins and is the greatest candidate: on a non-empty input,
when `main` reports `Found key2 key3`, the fast solver has returned some partial
key, `key2` is `submask | known_bits` for a subset `submask` of `unknown_mask`,
every observation's `key3_from_key2 key2` agrees with that of `inputs[0]`, every
candidate `submask | known_bits` with that property is at most `key2`, and `key3`
is `inputs[0].key3_from_key2 key2`. Here `inp1`, `m` are the input vector and the
bitmap the constructor leaves. -/
theorem main_found_greatest (raw : List (Nat × Nat × Nat × Nat)) (hne : raw ≠ [])
    (inp1 : input_data) (m : bitmap) (hb : bitmap.build (load_inputs raw) = (inp1, m))
    (key2 key3 : Nat) (hfound : main raw = some (search_result.Found key2 key3)) :
    ∃ key2p, fast_solver inp1 m m.solvable_bits = some key2p ∧
      (∃ s, s &&& not32 m.solvable_bits = s ∧ key2 = s ||| (key2p &&& m.solvable_bits)) ∧
      (∀ h ∈ inp1, ∀ h0, inp1.head? = some h0 →
        (h.key3_from_key2 key2).1 = (h0.key3_from_key2 key2).1) ∧
      (∀ s, s &&& not32 m.solvable_bits = s →
        (∀ h ∈ inp1, ∀ h0, inp1.head? = some h0 →
          (h.key3_from_key2 (s ||| (key2p &&& m.solvable_bits))).1 =
            (h0.key3_from_key2 (s ||| (key2p &&& m.solvable_bits))).1) →
        s ||| (key2p &&& m.solvable_bits) ≤ key2) ∧
      ∀ h0, inp1.head? = some h0 → key3 = (h0.key3_from_key2 key2).1 := by
  obtain ⟨key2p, hfs, hcs⟩ := main_unfold raw _ hfound
  obtain ⟨hne1, hmemo, hraw, hspec⟩ := main_search_spec raw hne key2p
  have hsb := solvable_lt32 (load_inputs raw)
  rw [hspec] at hcs
  have hres := Option.some.inj hcs
  rw [hb] at hfs hne1 hmemo hraw hres hsb
  simp only [] at hfs hne1 hmemo hraw hres hsb
  cases raw with
  | nil => exact absurd rfl hne
  | cons r t =>
    obtain ⟨hs, hacc, hgr, hk3⟩ := search_spec_greatest r t m.solvable_bits key2p key2 key3
      hsb hres
    refine ⟨key2p, hfs, hs, ?_, ?_, ?_⟩
    · rw [← hraw] at hacc
      exact (accepts_iff_agree inp1 hmemo key2).1 hacc
    · intro s hsub hag
      apply hgr s hsub
      rw [← hraw]
      exact (accepts_iff_agree inp1 hmemo _).2 hag
    · intro h0 hh0
      rw [hk3]
      cases inp1 with
      | nil => cases hh0
      | cons x xs =>
        have e0 : x = h0 := by simpa using hh0
        rw [← e0, key3_from_key2_val x (hmemo x (List.mem_cons_self _ _))]
        rw [List.map_cons] at hraw
        injection hraw with e1 _
        rw [e1]

/-- Witness for C15 on the reference dataset of `main.cpp`. -/
theorem main_found_greatest_witness :
    ∃ key2p, fast_solver (bitmap.build (load_inputs raw_inputs)).1
        (bitmap.build (load_inputs raw_inputs)).2
        (bitmap.build (load_inputs raw_inputs)).2.solvable_bits = some key2p ∧
      (∃ s, s &&& not32 (bitmap.build (load_inputs raw_inputs)).2.solvable_bits = s ∧
        0x8883aad3 = s ||| (key2p &&& (bitmap.build (load_inputs raw_inputs)).2.solvable_bits)) ∧
      (∀ h ∈ (bitmap.build (load_inputs raw_inputs)).1,
        ∀ h0, (bitmap.build (load_inputs raw_inputs)).1.head? = some h0 →
          (h.key3_from_key2 0x8883aad3).1 = (h0.key3_from_key2 0x8883aad3).1) ∧
      (∀ s, s &&& not32 (bitmap.build (load_inputs raw_inputs)).2.solvable_bits = s →
        (∀ h ∈ (bitmap.build (load_inputs raw_inputs)).1,
          ∀ h0, (bitmap.build (load_inputs raw_inputs)).1.head? = some h0 →
            (h.key3_from_key2
                (s ||| (key2p &&& (bitmap.build (load_inputs raw_inputs)).2.solvable_bits))).1 =
              (h0.key3_from_key2
                (s ||| (key2p &&& (bitmap.build (load_inputs raw_inputs)).2.solvable_bits))).1) →
        s ||| (key2p &&& (bitmap.build (load_inputs raw_inputs)).2.solvable_bits) ≤
          0x8883aad3) ∧
      ∀ h0, (bitmap.build (load_inputs raw_inputs)).1.head? = some h0 →
        0xbdc49ea7 = (h0.key3_from_key2 0x8883aad3).1 :=
  main_found_greatest raw_inputs (by decide) (bitmap.build (load_inputs raw_inputs)).1
    (bitmap.build (load_inputs raw_inputs)).2 Prod.mk.eta.symm 0x8883aad3 0xbdc49ea7
    main_raw_inputs

theorem not32_msb (sb : Nat) (hsb : sb < 2 ^ 31) : (not32 sb).testBit 31 = true := by
  have h32 : sb < 2 ^ 32 := by
    have h2 : (2 : Nat) ^ 31 < 2 ^ 32 := by norm_num
    omega
  rw [testBit_not32 _ _ h32, Nat.testBit_lt_two_pow hsb]
  rfl

/-- An accepted candidate stays accepted, and stays a candidate, when bit 31 of its
submask is set. -/
theorem msb_lift (raw : List (Nat × Nat × Nat × Nat)) (hraw : ∀ x ∈ raw, x.1 < 2 ^ 32)
    (sb key2p s : Nat) (hsb : sb < 2 ^ 31) (hs : s &&& not32 sb = s)
    (hacc : accepts raw (s ||| (key2p &&& sb)) = true) :
    (s ||| 2 ^ 31) &&& not32 sb = s ||| 2 ^ 31 ∧
      accepts raw ((s ||| 2 ^ 31) ||| (key2p &&& sb)) = true := by
  have h32 : sb < 2 ^ 32 := by
    have h2 : (2 : Nat) ^ 31 < 2 ^ 32 := by norm_num
    omega
  constructor
  · rw [submask_iff_testBit]
    intro i hi
    rw [Nat.testBit_or, Nat.testBit_two_pow, Bool.or_eq_true, decide_eq_true_eq] at hi
    rcases hi with hi | hi
    · exact (submask_iff_testBit s (not32 sb)).1 hs i hi
    · rw [← hi]
      exact not32_msb sb hsb
  · have hlt : s ||| (key2p &&& sb) < 2 ^ 32 := by
      apply Nat.or_lt_two_pow
      · have := submask_le hs
        have := not32_lt sb
        omega
      · have : key2p &&& sb ≤ sb := Nat.and_le_right
        omega
    have hre : (s ||| 2 ^ 31) ||| (key2p &&& sb) = (s ||| (key2p &&& sb)) ||| 2 ^ 31 := by
      rw [Nat.or_assoc, Nat.or_comm (2 ^ 31), ← Nat.or_assoc]
    rw [hre, or_msb]
    split
    · exact hacc
    · rw [accepts_flip_msb raw _ hraw hlt]
      exact hacc

/-- The candidate the search reports has bit 31 set. -/
theorem search_spec_msb (r : Nat × Nat × Nat × Nat) (t : List (Nat × Nat × Nat × Nat))
    (hraw : ∀ x ∈ r :: t, x.1 < 2 ^ 32) (sb key2p k2 k3 : Nat) (hsb : sb < 2 ^ 31)
    (hf : search_spec (r :: t) (not32 sb) (key2p &&& sb) = search_result.Found k2 k3) :
    k2.testBit 31 = true := by
  unfold search_spec at hf
  have hum := not32_lt sb
  rcases loop_result_cases r t (key2p &&& sb) (submask_seq (not32 sb)) with
    ⟨h1, _⟩ | ⟨s, hmem, hacc, hfind, h4⟩
  · rw [h1] at hf
    cases hf
  · rw [h4] at hf
    injection hf with e2 _
    have hs : s &&& not32 sb = s := (submask_seq_mem _ hum s).1 hmem
    obtain ⟨hs2, hacc2⟩ := msb_lift (r :: t) hraw sb key2p s hsb hs hacc
    have hle := find_first_greatest (fun s => accepts (r :: t) (s ||| (key2p &&& sb))) _ s
      (submask_seq_pairwise _ hum) hfind (s ||| 2 ^ 31) ((submask_seq_mem _ hum _).2 hs2) hacc2
    have hge : s ≤ s ||| 2 ^ 31 := by
      apply Nat.le_of_testBit
      intro i hi
      rw [Nat.testBit_or, hi]
      rfl
    have heq : s ||| 2 ^ 31 = s := Nat.le_antisymm hle hge
    have hbit : s.testBit 31 = true := by
      rw [← heq, Nat.testBit_or, Nat.testBit_two_pow_self]
      simp
    rw [← e2, Nat.testBit_or, hbit]
    rfl

/-- When the submask loop ends without a verified candidate, the candidate
`known_bits` of the zero-submask trial is not accepted either. -/
theorem zero_trial_rejected (r : Nat × Nat × Nat × Nat) (t : List (Nat × Nat × Nat × Nat))
    (hraw : ∀ x ∈ r :: t, x.1 < 2 ^ 32) (sb key2p : Nat) (hsb : sb < 2 ^ 31)
    (hl : loop_result (r :: t) (key2p &&& sb) (submask_loop (not32 sb) (not32 sb)) =
      search_result.NotFound) :
    accepts (r :: t) (key2p &&& sb) = false := by
  cases hacc : accepts (r :: t) (key2p &&& sb)
  · rfl
  · exfalso
    have hum := not32_lt sb
    have h0 : accepts (r :: t) (0 ||| (key2p &&& sb)) = true := by
      rw [Nat.zero_or]; exact hacc
    obtain ⟨hs2, hacc2⟩ := msb_lift (r :: t) hraw sb key2p 0 hsb (Nat.zero_and _) h0
    rw [Nat.zero_or] at hs2 hacc2
    have hmem : 2 ^ 31 ∈ submask_seq (not32 sb) := (submask_seq_mem _ hum _).2 hs2
    unfold submask_seq at hmem
    rcases List.mem_append.1 hmem with hm | hm
    · rcases loop_result_cases r t (key2p &&& sb) (submask_loop (not32 sb) (not32 sb)) with
        ⟨_, h2⟩ | ⟨s, _, _, _, h4⟩
      · rw [h2 _ hm] at hacc2
        cases hacc2
      · rw [h4] at hl
        cases hl
    · simp at hm

/-- With bit 31 among the unknown bits, the candidate search returns what the
submask loop returns, and the zero-submask trial fails whenever it is reached. -/
theorem candidate_search_eq_loop (inp : input_data) (hne : inp ≠ [])
    (hm : ∀ h ∈ inp, memo_ok h) (ha : ∀ h ∈ inp, h.a < 2 ^ 32) (sb key2p : Nat)
    (hsb : sb < 2 ^ 31) :
    candidate_search (not32 sb) (key2p &&& sb) inp =
        (search_loop (not32 sb) (key2p &&& sb) (not32 sb) inp).map Prod.fst ∧
      ∀ inp1, search_loop (not32 sb) (key2p &&& sb) (not32 sb) inp =
          some (search_result.NotFound, inp1) →
        ∃ k3 inp2, try_key2 inp1 (key2p &&& sb) = some (false, k3, inp2) := by
  obtain ⟨inp1, hloop, hraw1, hm1⟩ := search_loop_spec (not32 sb) (key2p &&& sb) (not32 sb)
    inp hne hm
  have hraw : ∀ x ∈ inp.map raw_of, x.1 < 2 ^ 32 := by
    intro x hx
    obtain ⟨h, hh, rfl⟩ := List.mem_map.1 hx
    exact ha h hh
  cases hres : loop_result (inp.map raw_of) (key2p &&& sb) (submask_loop (not32 sb) (not32 sb)) with
  | Found k2 k3 =>
    rw [hres] at hloop
    constructor
    · rw [candidate_search_found _ _ inp inp1 k2 k3 hloop, hloop]
      rfl
    · intro inp2 h2
      rw [hloop] at h2
      cases h2
  | NotFound =>
    rw [hres] at hloop
    have hne1 : inp1 ≠ [] := by
      intro h
      rw [h] at hraw1
      exact hne (List.map_eq_nil_iff.1 hraw1.symm)
    obtain ⟨r, t, inp2, hr, htry, _, _⟩ := try_key2_spec (key2p &&& sb) inp1 hne1 hm1
    rw [hraw1] at hr htry
    rw [hr] at hraw hres htry
    rw [zero_trial_rejected r t hraw sb key2p hsb hres] at htry
    constructor
    · rw [candidate_search_zero _ _ inp inp1 inp2 _ _ hloop htry, hloop]
      rfl
    · intro inp3 h3
      rw [hloop] at h3
      injection h3 with h3
      injection h3 with _ h3
      rw [← h3]
      exact ⟨_, _, htry⟩

/-- C19. On a non-empty input with 32-bit `a` values, whenever `main` reports
`Found key2 key3`, bit 31 of `key2` is set; for whatever partial key the fast
solver returns, the zero-submask trial after the loop does not verify when it is
reached, and the candidate search returns exactly what the submask loop returns.
Here `inp1`, `m` are the input vector and the bitmap the constructor leaves. -/
theorem main_found_msb (raw : List (Nat × Nat × Nat × Nat)) (hne : raw ≠ [])
    (hraw : ∀ r ∈ raw, r.1 < 2 ^ 32) (inp1 : input_data) (m : bitmap)
    (hb : bitmap.build (load_inputs raw) = (inp1, m)) :
    (∀ key2 key3, main raw = some (search_result.Found key2 key3) →
        key2.testBit 31 = true) ∧
      (∀ key2p inp2,
        search_loop (not32 m.solvable_bits) (key2p &&& m.solvable_bits)
            (not32 m.solvable_bits) inp1 = some (search_result.NotFound, inp2) →
          ∃ k3 inp3, try_key2 inp2 (key2p &&& m.solvable_bits) = some (false, k3, inp3)) ∧
      ∀ key2p,
        candidate_search (not32 m.solvable_bits) (key2p &&& m.solvable_bits) inp1 =
          (search_loop (not32 m.solvable_bits) (key2p &&& m.solvable_bits)
            (not32 m.solvable_bits) inp1).map Prod.fst := by
  have hsb := build_solvable_lt (load_inputs raw)
  obtain ⟨hne1, hmemo, hwords, _⟩ := main_search_spec raw hne 0
  have ha : ∀ h ∈ (bitmap.build (load_inputs raw)).1, h.a < 2 ^ 32 := by
    intro h hh
    have : raw_of h ∈ raw := by
      rw [← hwords]
      exact List.mem_map.2 ⟨h, hh, rfl⟩
    exact hraw _ this
  refine ⟨?_, ?_, ?_⟩
  · intro key2 key3 hfound
    obtain ⟨key2p, _, hcs⟩ := main_unfold raw _ hfound
    rw [(main_search_spec raw hne key2p).2.2.2] at hcs
    have hres := Option.some.inj hcs
    cases raw with
    | nil => exact absurd rfl hne
    | cons r t => exact search_spec_msb r t hraw _ key2p key2 key3 hsb hres
  · intro key2p inp2 hloop
    have h := (candidate_search_eq_loop _ hne1 hmemo ha _ key2p hsb).2
    rw [hb] at h
    exact h inp2 hloop
  · intro key2p
    have h := (candidate_search_eq_loop _ hne1 hmemo ha _ key2p hsb).1
    rw [hb] at h
    exact h

/-- Witness for C19 on the reference dataset of `main.cpp`. -/
theorem main_found_msb_witness :
    (∀ key2 key3, main raw_inputs = some (search_result.Found key2 key3) →
        key2.testBit 31 = true) ∧
      (∀ key2p inp2,
        search_loop (not32 (bitmap.build (load_inputs raw_inputs)).2.solvable_bits)
            (key2p &&& (bitmap.build (load_inputs raw_inputs)).2.solvable_bits)
            (not32 (bitmap.build (load_inputs raw_inputs)).2.solvable_bits)
            (bitmap.build (load_inputs raw_inputs)).1 =
              some (search_result.NotFound, inp2) →
          ∃ k3 inp3,
            try_key2 inp2 (key2p &&& (bitmap.build (load_inputs raw_inputs)).2.solvable_bits) =
              some (false, k3, inp3)) ∧
      ∀ key2p,
        candidate_search (not32 (bitmap.build (load_inputs raw_inputs)).2.solvable_bits)
            (key2p &&& (bitmap.build (load_inputs raw_inputs)).2.solvable_bits)
            (bitmap.build (load_inputs raw_inputs)).1 =
          (search_loop (not32 (bitmap.build (load_inputs raw_inputs)).2.solvable_bits)
            (key2p &&& (bitmap.build (load_inputs raw_inputs)).2.solvable_bits)
            (not32 (bitmap.build (load_inputs raw_inputs)).2.solvable_bits)
            (bitmap.build (load_inputs raw_inputs)).1).map Prod.fst :=
  main_found_msb raw_inputs (by decide) (by decide) (bitmap.build (load_inputs raw_inputs)).1
    (bitmap.build (load_inputs raw_inputs)).2 Prod.mk.eta.symm

/-- C20. A single observation is accepted on the first trial: for an input of
exactly one observation `(a, b, sum, b_prime)`, the first candidate of the submask
loop, `key2 = 0xFFFFFFFF`, verifies at once (the loop over the remaining
observations is empty), the loop ends there, and `main` reports
`Found 0xFFFFFFFF key3` with
`key3 = (b - b_prime - (a<<4) - ((a>>5) ^ sum)) - (0xFFFFFFFF ^ a)` (mod 2^32). -/
theorem main_single_observation (a b sum b_prime : Nat) :
    main [(a, b, sum, b_prime)] =
        some (search_result.Found 0xFFFFFFFF
          (sub32 (sub32 (sub32 (sub32 b b_prime) (shl32 a 4)) ((a >>> 5) ^^^ sum))
            (0xFFFFFFFF ^^^ a))) ∧
      (bitmap.build (load_inputs [(a, b, sum, b_prime)])).2.solvable_bits = 0 ∧
      ∃ inp2,
        try_key2 (bitmap.build (load_inputs [(a, b, sum, b_prime)])).1 0xFFFFFFFF =
            some (true,
              sub32 (sub32 (sub32 (sub32 b b_prime) (shl32 a 4)) ((a >>> 5) ^^^ sum))
                (0xFFFFFFFF ^^^ a), inp2) ∧
          search_loop 0xFFFFFFFF 0 0xFFFFFFFF
              (bitmap.build (load_inputs [(a, b, sum, b_prime)])).1 =
            some (search_result.Found 0xFFFFFFFF
              (sub32 (sub32 (sub32 (sub32 b b_prime) (shl32 a 4)) ((a >>> 5) ^^^ sum))
                (0xFFFFFFFF ^^^ a)), inp2) := by
  have hne : [(a, b, sum, b_prime)] ≠ [] := List.cons_ne_nil _ _
  have hsb : (bitmap.build (load_inputs [(a, b, sum, b_prime)])).2.solvable_bits = 0 :=
    build_solvable_short _ (Nat.lt_succ_self 1)
  obtain ⟨hne1, hmemo, hwords, _⟩ := main_search_spec [(a, b, sum, b_prime)] hne 0
  obtain ⟨r, t, inp2, hr, htry, _, _⟩ := try_key2_spec 0xFFFFFFFF _ hne1 hmemo
  rw [hwords] at hr htry
  injection hr with hr1 hr2
  have hacc : accepts [(a, b, sum, b_prime)] 0xFFFFFFFF = true := rfl
  have hk3 : k3_raw r 0xFFFFFFFF =
      sub32 (sub32 (sub32 (sub32 b b_prime) (shl32 a 4)) ((a >>> 5) ^^^ sum))
        (0xFFFFFFFF ^^^ a) := by
    rw [← hr1]
    rfl
  rw [hacc, hk3] at htry
  have htry0 : try_key2 (bitmap.build (load_inputs [(a, b, sum, b_prime)])).1
      (0xFFFFFFFF ||| 0) = some (true,
        sub32 (sub32 (sub32 (sub32 b b_prime) (shl32 a 4)) ((a >>> 5) ^^^ sum))
          (0xFFFFFFFF ^^^ a), inp2) := by
    rw [Nat.or_zero]
    exact htry
  have hloop := search_loop_found 0xFFFFFFFF 0 (by decide : (0xFFFFFFFF : Nat) ≠ 0) _ inp2 _ htry0
  rw [Nat.or_zero] at hloop
  refine ⟨?_, hsb, inp2, htry, hloop⟩
  have hfs : fast_solver (bitmap.build (load_inputs [(a, b, sum, b_prime)])).1
      (bitmap.build (load_inputs [(a, b, sum, b_prime)])).2
      (bitmap.build (load_inputs [(a, b, sum, b_prime)])).2.solvable_bits = some 0 := by
    rw [hsb]
    exact fast_solver_zero _ _
  unfold main
  simp only []
  rw [hfs]
  simp only []
  rw [hsb]
  have hn : not32 0 = 0xFFFFFFFF := by decide
  rw [hn, Nat.and_zero]
  exact candidate_search_found 0xFFFFFFFF 0 _ inp2 _ _ hloop

end teasolver
